import Mathlib

/-! # near-good-peers: peer classification, ranking and selection

A shallow embedding of `cmd/main.go`.  The program fetches the active peers of a
node, dials each one, sorts the reachable and fast ones by connection latency
and prints the addresses of the first `n`.

* `time.Duration` is a signed 64-bit count of nanoseconds; it is embedded as an
  `Int`, and the one place where the program multiplies durations
  (`time.Duration(*ms) * time.Millisecond`) wraps modulo `2^64` (`wrap64`).
* Slices are lists; `append` is `++ [x]`; an in-place `Swap` returns the new list.
* The network is an input: `net k addr` is what the `k`-th call of
  `net.DialTimeout` in a run answers for address `addr`.
* `sort.Sort` is the pattern-defeating quicksort of the Go standard library
  (Go 1.19 and later), driven only through `Peers.Len`, `Peers.Less` and
  `Peers.Swap` of this program.  Indices are natural numbers; a slice has fewer
  than `2^63` entries.  A loop that has no counter of its own takes a bound on
  its rounds as first argument; the theorems show that every bound used is
  enough (a larger one gives the same result).
* `json.Unmarshal` is embedded on parsed JSON values, as the documentation of
  `encoding/json` describes it: keys are matched with field names exactly or
  case-insensitively, unknown keys are skipped, `null` leaves a struct or a
  string as it is, and a value of the wrong JSON type is skipped and reported
  as a type error once the whole value is read.
-/

namespace GoodPeers

/-! ## Data model -/

/-- A `time.Duration`, in nanoseconds. -/
abbrev Duration := Int

/-- Two's-complement wrap-around of a signed 64-bit integer operation. -/
def wrap64 (x : Int) : Int := (x + 2 ^ 63) % 2 ^ 64 - 2 ^ 63

/-- The constant `time.Millisecond`. -/
def Millisecond : Duration := 1000000

/-- The struct `Peer`. -/
structure Peer where
  AccountId : String
  Addr : String
  Id : String
  Speed : Duration
deriving DecidableEq, Repr, Inhabited

/-- The slice type `Peers`. -/
abbrev Peers := List Peer

/-- Method `Len` of `Peers`. -/
def Peers.Len (p : Peers) : Nat := p.length

/-- Method `Less` of `Peers`: `p[i].Speed < p[j].Speed`.  (Go panics on an index
outside the slice; here such a read gives the zero `Peer`.  `sort.Sort` stays
inside the slice.) -/
def Peers.Less (p : Peers) (i j : Nat) : Bool :=
  decide ((p.getD i default).Speed < (p.getD j default).Speed)

/-- Method `Swap` of `Peers`: `p[i], p[j] = p[j], p[i]`.  (A write outside the
slice is dropped; the lemmas on `Rearranged` show that every `Swap` of
`sort.Sort` has both indices inside the range it sorts.) -/
def Peers.Swap (p : Peers) (i j : Nat) : Peers :=
  (p.set i (p.getD j default)).set j (p.getD i default)

/-! ## The standard library's `sort.Sort`, over `Peers` -/

/-- The function `bits.Len`: the number of bits needed to write `n`. -/
def bitsLen (n : Nat) : Nat := if n = 0 then 0 else Nat.log2 n + 1

/-- Inner loop of `insertionSort`:
`for j := i; j > a && data.Less(j, j-1); j-- { data.Swap(j, j-1) }`. -/
def insertionSortInner (a : Nat) : Nat → Peers → Peers
  | 0, data => data
  | j + 1, data =>
    if a < j + 1 ∧ data.Less (j + 1) j = true then
      insertionSortInner a j (data.Swap (j + 1) j)
    else data

/-- The function `insertionSort(data, a, b)`: the outer loop runs `i` over
`a+1, ..., b-1`. -/
def insertionSort (data : Peers) (a b : Nat) : Peers :=
  (List.range' (a + 1) (b - (a + 1))).foldl (fun d i => insertionSortInner a i d) data

/-- The function `siftDown(data, lo, hi, first)`; `root` starts at `lo`, the
first argument bounds the number of rounds of the loop. -/
def siftDown (hi first : Nat) : Nat → Nat → Peers → Peers
  | 0, _, data => data
  | fuel + 1, root, data =>
    let child := 2 * root + 1
    if hi ≤ child then data
    else
      let child :=
        if child + 1 < hi ∧ data.Less (first + child) (first + child + 1) = true
        then child + 1 else child
      if data.Less (first + root) (first + child) = false then data
      else siftDown hi first fuel child (data.Swap (first + root) (first + child))

/-- The function `heapSort(data, a, b)`. -/
def heapSort (data : Peers) (a b : Nat) : Peers :=
  let first := a
  let lo := 0
  let hi := b - a
  let built := (List.range ((hi - 1) / 2 + 1)).reverse.foldl
    (fun d i => siftDown hi first hi i d) data
  (List.range hi).reverse.foldl
    (fun d i => siftDown i first i lo (d.Swap first (first + i))) built

/-- The type `sortedHint`. -/
inductive sortedHint
  | unknownHint
  | increasingHint
  | decreasingHint
deriving DecidableEq, Repr

/-- Method `Next` of `xorshift`, on 64-bit unsigned words (the shifts are those
of Go 1.21; no theorem below depends on them). -/
def xorshiftNext (r : Nat) : Nat :=
  let r := r ^^^ ((r <<< 13) % 2 ^ 64)
  let r := r ^^^ (r >>> 7)
  r ^^^ ((r <<< 17) % 2 ^ 64)

/-- The function `nextPowerOfTwo`: `1 << bits.Len(length)` as a `uint`. -/
def nextPowerOfTwo (length : Nat) : Nat := (1 <<< bitsLen length) % 2 ^ 64

/-- The function `breakPatterns(data, a, b)`. -/
def breakPatterns (data : Peers) (a b : Nat) : Peers :=
  let length := b - a
  if 8 ≤ length then
    let modulus := nextPowerOfTwo length
    let idx := a + (length / 4) * 2 - 1
    ((List.range 3).foldl
      (fun (s : Nat × Peers) i =>
        let random := xorshiftNext s.1
        let other := random &&& (modulus - 1)
        let other := if length ≤ other then other - length else other
        (random, s.2.Swap (idx - 1 + i) (a + other)))
      (length, data)).2
  else data

/-- The function `order2`; the swap counter is passed through. -/
def order2 (data : Peers) (a b swaps : Nat) : Nat × Nat × Nat :=
  if data.Less b a = true then (b, a, swaps + 1) else (a, b, swaps)

/-- The function `median`: the index of the median of three, and the counter. -/
def median (data : Peers) (a b c swaps : Nat) : Nat × Nat :=
  let (a, b, swaps) := order2 data a b swaps
  let (b, _, swaps) := order2 data b c swaps
  let (_, b, swaps) := order2 data a b swaps
  (b, swaps)

/-- The function `medianAdjacent`. -/
def medianAdjacent (data : Peers) (a swaps : Nat) : Nat × Nat :=
  median data (a - 1) a (a + 1) swaps

/-- The function `choosePivot(data, a, b)`. -/
def choosePivot (data : Peers) (a b : Nat) : Nat × sortedHint :=
  let shortestNinther := 50
  let maxSwaps := 4 * 3
  let l := b - a
  let i := a + l / 4 * 1
  let j := a + l / 4 * 2
  let k := a + l / 4 * 3
  let (j, swaps) :=
    if 8 ≤ l then
      if shortestNinther ≤ l then
        let (i, swaps) := medianAdjacent data i 0
        let (j, swaps) := medianAdjacent data j swaps
        let (k, swaps) := medianAdjacent data k swaps
        median data i j k swaps
      else median data i j k 0
    else (j, 0)
  if swaps = 0 then (j, sortedHint.increasingHint)
  else if swaps = maxSwaps then (j, sortedHint.decreasingHint)
  else (j, sortedHint.unknownHint)

/-- The loop of `reverseRange`: `for i < j { data.Swap(i, j); i++; j-- }`. -/
def reverseLoop : Nat → Nat → Nat → Peers → Peers
  | 0, _, _, data => data
  | fuel + 1, i, j, data =>
    if i < j then reverseLoop fuel (i + 1) (j - 1) (data.Swap i j) else data

/-- The function `reverseRange(data, a, b)`. -/
def reverseRange (data : Peers) (a b : Nat) : Peers :=
  reverseLoop (b - a) a (b - 1) data

/-- Loop `for i <= j && data.Less(i, a) { i++ }` of `partition`. -/
def scanLessUp (data : Peers) (a j : Nat) : Nat → Nat → Nat
  | 0, i => i
  | fuel + 1, i =>
    if i ≤ j ∧ data.Less i a = true then scanLessUp data a j fuel (i + 1) else i

/-- Loop `for i <= j && !data.Less(j, a) { j-- }` of `partition`
(`i` is at least `a + 1`, so the loop stops before `j` leaves the naturals). -/
def scanNotLessDown (data : Peers) (a i : Nat) : Nat → Nat
  | 0 => 0
  | j + 1 =>
    if i ≤ j + 1 ∧ data.Less (j + 1) a = false then scanNotLessDown data a i j else j + 1

/-- The final `for` loop of `partition`; returns the last `j` and the data. -/
def partitionLoop (a : Nat) : Nat → Nat → Nat → Peers → Nat × Peers
  | 0, _, j, data => (j, data)
  | fuel + 1, i, j, data =>
    let i := scanLessUp data a j (j + 1 - i) i
    let j := scanNotLessDown data a i j
    if j < i then (j, data)
    else partitionLoop a fuel (i + 1) (j - 1) (data.Swap i j)

/-- The function `partition(data, a, b, pivot)`: the data, `newpivot` and
`alreadyPartitioned`. -/
def partition (data : Peers) (a b pivot : Nat) : Peers × Nat × Bool :=
  let data := data.Swap a pivot
  let i := a + 1
  let j := b - 1
  let i := scanLessUp data a j (j + 1 - i) i
  let j := scanNotLessDown data a i j
  if j < i then (data.Swap j a, j, true)
  else
    let data := data.Swap i j
    let r := partitionLoop a (b - a) (i + 1) (j - 1) data
    (r.2.Swap r.1 a, r.1, false)

/-- Loop `for i <= j && !data.Less(a, i) { i++ }` of `partitionEqual`. -/
def scanNotGreaterUp (data : Peers) (a j : Nat) : Nat → Nat → Nat
  | 0, i => i
  | fuel + 1, i =>
    if i ≤ j ∧ data.Less a i = false then scanNotGreaterUp data a j fuel (i + 1) else i

/-- Loop `for i <= j && data.Less(a, j) { j-- }` of `partitionEqual`. -/
def scanGreaterDown (data : Peers) (a i : Nat) : Nat → Nat
  | 0 => 0
  | j + 1 =>
    if i ≤ j + 1 ∧ data.Less a (j + 1) = true then scanGreaterDown data a i j else j + 1

/-- The `for` loop of `partitionEqual`; returns the last `i` and the data. -/
def partitionEqualLoop (a : Nat) : Nat → Nat → Nat → Peers → Nat × Peers
  | 0, i, _, data => (i, data)
  | fuel + 1, i, j, data =>
    let i := scanNotGreaterUp data a j (j + 1 - i) i
    let j := scanGreaterDown data a i j
    if j < i then (i, data)
    else partitionEqualLoop a fuel (i + 1) (j - 1) (data.Swap i j)

/-- The function `partitionEqual(data, a, b, pivot)`: the data and `newpivot`. -/
def partitionEqual (data : Peers) (a b pivot : Nat) : Peers × Nat :=
  let data := data.Swap a pivot
  let r := partitionEqualLoop a (b - a) (a + 1) (b - 1) data
  (r.2, r.1)

/-- Loop `for i < b && !data.Less(i, i-1) { i++ }` of `partialInsertionSort`. -/
def skipOrdered (data : Peers) (b : Nat) : Nat → Nat → Nat
  | 0, i => i
  | fuel + 1, i =>
    if i < b ∧ data.Less i (i - 1) = false then skipOrdered data b fuel (i + 1) else i

/-- Loop `for j := i - 1; j >= 1; j-- { if !data.Less(j, j-1) { break }; data.Swap(j, j-1) }`
of `partialInsertionSort`, started at `j`. -/
def shiftSmaller : Nat → Peers → Peers
  | 0, data => data
  | j + 1, data =>
    if data.Less (j + 1) j = false then data else shiftSmaller j (data.Swap (j + 1) j)

/-- Loop `for j := i + 1; j < b; j++ { if !data.Less(j, j-1) { break }; data.Swap(j, j-1) }`
of `partialInsertionSort`, started at `j`. -/
def shiftGreater (b : Nat) : Nat → Nat → Peers → Peers
  | 0, _, data => data
  | fuel + 1, j, data =>
    if j < b then
      if data.Less j (j - 1) = false then data
      else shiftGreater b fuel (j + 1) (data.Swap j (j - 1))
    else data

/-- The loop `for j := 0; j < maxSteps; j++` of `partialInsertionSort`, with the
number of rounds that are left. -/
def partialInsertionSortLoop (a b : Nat) : Nat → Nat → Peers → Bool × Peers
  | 0, _, data => (false, data)
  | steps + 1, i, data =>
    let shortestShifting := 50
    let i := skipOrdered data b (b - i) i
    if i = b then (true, data)
    else if b - a < shortestShifting then (false, data)
    else
      let data := data.Swap i (i - 1)
      let data := if 2 ≤ i - a then shiftSmaller (i - 1) data else data
      let data := if 2 ≤ b - i then shiftGreater b (b - (i + 1)) (i + 1) data else data
      partialInsertionSortLoop a b steps i data

/-- The function `partialInsertionSort(data, a, b)`: whether the range is sorted
at the end, and the data. -/
def partialInsertionSort (data : Peers) (a b : Nat) : Bool × Peers :=
  let maxSteps := 5
  partialInsertionSortLoop a b maxSteps (a + 1) data

/-- The function `pdqsort(data, a, b, limit)`.  `wasBalanced` and
`wasPartitioned` are the loop's variables (both start `true`); the first
argument bounds the rounds of the loop and the depth of the recursion. -/
def pdqsortLoop : Nat → Peers → Nat → Nat → Nat → Bool → Bool → Peers
  | 0, data, _, _, _, _, _ => data
  | fuel + 1, data, a, b, limit, wasBalanced, wasPartitioned =>
    let maxInsertion := 12
    let length := b - a
    if length ≤ maxInsertion then insertionSort data a b
    else if limit = 0 then heapSort data a b
    else
      let data := if wasBalanced then data else breakPatterns data a b
      let limit := if wasBalanced then limit else limit - 1
      let (pivot, hint) := choosePivot data a b
      let data := if hint = sortedHint.decreasingHint then reverseRange data a b else data
      let pivot := if hint = sortedHint.decreasingHint then (b - 1) - (pivot - a) else pivot
      let hint := if hint = sortedHint.decreasingHint then sortedHint.increasingHint else hint
      let tried :=
        if wasBalanced ∧ wasPartitioned ∧ hint = sortedHint.increasingHint
        then partialInsertionSort data a b else (false, data)
      if tried.1 then tried.2
      else
        let data := tried.2
        if 0 < a ∧ data.Less (a - 1) pivot = false then
          let (data, mid) := partitionEqual data a b pivot
          pdqsortLoop fuel data mid b limit wasBalanced wasPartitioned
        else
          let (data, mid, alreadyPartitioned) := partition data a b pivot
          let leftLen := mid - a
          let rightLen := b - mid
          let balanceThreshold := length / 8
          if leftLen < rightLen then
            let data := pdqsortLoop fuel data a mid limit true true
            pdqsortLoop fuel data (mid + 1) b limit
              (decide (balanceThreshold ≤ leftLen)) alreadyPartitioned
          else
            let data := pdqsortLoop fuel data (mid + 1) b limit true true
            pdqsortLoop fuel data a mid limit
              (decide (balanceThreshold ≤ rightLen)) alreadyPartitioned

/-- The function `pdqsort(data, a, b, limit)`: every round of the loop ends or
makes `b - a` smaller, so `b - a + 1` rounds are enough. -/
def pdqsort (data : Peers) (a b limit : Nat) : Peers :=
  pdqsortLoop (b - a + 1) data a b limit true true

/-- The function `sort.Sort(data)`. -/
def sort_Sort (data : Peers) : Peers :=
  let n := data.Len
  if n ≤ 1 then data
  else
    let limit := bitsLen n
    pdqsort data 0 n limit

/-! ## Probing and classification -/

/-- What `net.DialTimeout` does for one call: it fails with an error, or it
connects, and `time.Since(startTime)` then reads `elapsed`. -/
inductive DialResult
  | failed (err : String)
  | connected (elapsed : Duration)
deriving DecidableEq, Repr

/-- The function `checkPeerSpeed`: the pair `(speed, err)` it returns. -/
def checkPeerSpeed (dial : DialResult) : Duration × Option String :=
  match dial with
  | .failed err => (0, some err)
  | .connected elapsed => (elapsed, none)

/-- The three slices `goodPeers`, `slowPeers` and `badPeers` of `main`. -/
structure Buckets where
  goodPeers : Peers
  slowPeers : Peers
  badPeers : Peers
deriving DecidableEq, Repr

/-- The three slices as declared (`var goodPeers Peers`, ...): all nil. -/
def Buckets.empty : Buckets := ⟨[], [], []⟩

/-- The expression `time.Duration(*ms) * time.Millisecond`: the conversion and the
product are 64-bit signed operations. -/
def threshold (ms : Int) : Duration := wrap64 (wrap64 ms * Millisecond)

/-- One round of the classification loop of `main`, given what
`checkPeerSpeed(peer.Addr)` returned; `T` is the value of
`time.Duration(*ms)*time.Millisecond`. -/
def classifyStep (T : Duration) (b : Buckets) (peer : Peer) (r : Duration × Option String) :
    Buckets :=
  match r.2 with
  | some _ => { b with badPeers := b.badPeers ++ [peer] }
  | none =>
    let peer := { peer with Speed := r.1 }
    if r.1 > T then { b with slowPeers := b.slowPeers ++ [peer] }
    else { b with goodPeers := b.goodPeers ++ [peer] }

/-- The loop `for _, peer := range peers` of `main`; `k` counts the dials made
so far in the run. -/
def classifyLoop (T : Duration) (net : Nat → String → DialResult) :
    Nat → List Peer → Buckets → Buckets
  | _, [], b => b
  | k, peer :: rest, b =>
    classifyLoop T net (k + 1) rest
      (classifyStep T b peer (checkPeerSpeed (net k peer.Addr)))

/-- The loop `for idx, peer := range goodPeers` of `main` that fills
`selectedPeers`. -/
def selectLoop (n : Int) : Nat → List Peer → List String → List String
  | _, [], selectedPeers => selectedPeers
  | idx, peer :: rest, selectedPeers =>
    if (idx : Int) ≥ n then selectedPeers
    else selectLoop n (idx + 1) rest (selectedPeers ++ [peer.Addr])

/-! ## Fetching the peers -/

/-- A JSON number as `encoding/json` reads it into an integer field: a literal
that is an integer (`strconv.ParseInt` accepts its text) or one with a
fraction or an exponent. -/
inductive JNumber
  | int (v : Int)
  | real (text : String)
deriving Repr

/-- A well-formed JSON value. -/
inductive JSON
  | null
  | bool (b : Bool)
  | num (n : JNumber)
  | str (s : String)
  | arr (xs : List JSON)
  | obj (members : List (String × JSON))

/-- Simple case folding of one rune, as far as it reaches ASCII letters: the
long s and the Kelvin sign fold to `S` and `K`. -/
def foldRune (c : Char) : Char :=
  if c = Char.ofNat 0x17F then 'S'
  else if c = Char.ofNat 0x212A then 'K'
  else c.toUpper

/-- Case-insensitive match of a JSON key with a field name (`bytes.EqualFold`). -/
def equalFold (key name : String) : Bool :=
  key.toList.map foldRune == name.toList.map foldRune

/-- The names under which `encoding/json` knows the fields of `Peer`, in the
order of the struct.  The tag of `Id` is malformed, so the field keeps its Go
name; `Speed` has no tag. -/
def peerFieldNames : List String := ["account_id", "addr", "Id", "Speed"]

/-- The field a key of a JSON object is stored into: an exact match is
preferred, a case-insensitive one accepted. -/
def findField (names : List String) (key : String) : Option String :=
  match names.find? (fun name => name == key) with
  | some name => some name
  | none => names.find? (fun name => equalFold key name)

/-- Storing a JSON value into a `string` field: the new value and whether an
`UnmarshalTypeError` was saved. -/
def decodeString (v : JSON) (cur : String) : String × Bool :=
  match v with
  | .str s => (s, false)
  | .null => (cur, false)
  | _ => (cur, true)

/-- Storing a JSON value into an `int64` field (`Speed`). -/
def decodeInt64 (v : JSON) (cur : Int) : Int × Bool :=
  match v with
  | .num (.int n) => if -2 ^ 63 ≤ n ∧ n < 2 ^ 63 then (n, false) else (cur, true)
  | .null => (cur, false)
  | _ => (cur, true)

/-- Storing one member of a JSON object into a `Peer`. -/
def decodePeerMember (s : Peer × Bool) (m : String × JSON) : Peer × Bool :=
  match findField peerFieldNames m.1 with
  | some "account_id" =>
    let r := decodeString m.2 s.1.AccountId
    ({ s.1 with AccountId := r.1 }, s.2 || r.2)
  | some "addr" =>
    let r := decodeString m.2 s.1.Addr
    ({ s.1 with Addr := r.1 }, s.2 || r.2)
  | some "Id" =>
    let r := decodeString m.2 s.1.Id
    ({ s.1 with Id := r.1 }, s.2 || r.2)
  | some "Speed" =>
    let r := decodeInt64 m.2 s.1.Speed
    ({ s.1 with Speed := r.1 }, s.2 || r.2)
  | _ => s

/-- Storing a JSON value into a `Peer`. -/
def decodePeer (v : JSON) (cur : Peer) : Peer × Bool :=
  match v with
  | .obj members => members.foldl decodePeerMember (cur, false)
  | .null => (cur, false)
  | _ => (cur, true)

/-- Storing a JSON value into a `[]Peer`: an array resets the slice and appends
each element, `null` sets it to nil, anything else is a type error. -/
def decodePeers (v : JSON) (cur : Peers) : Peers × Bool :=
  match v with
  | .arr xs =>
    let r := xs.map (fun x => decodePeer x ⟨"", "", "", 0⟩)
    (r.map Prod.fst, r.any Prod.snd)
  | .null => ([], false)
  | _ => (cur, true)

/-- The struct `NetworkResult`. -/
structure NetworkResult where
  ActivePeers : Peers
deriving Repr

/-- The struct `NetworkInfo`. -/
structure NetworkInfo where
  Result : NetworkResult
deriving Repr

/-- Storing one member of a JSON object into a `NetworkResult`. -/
def decodeNetworkResultMember (s : NetworkResult × Bool) (m : String × JSON) :
    NetworkResult × Bool :=
  match findField ["active_peers"] m.1 with
  | some _ =>
    let r := decodePeers m.2 s.1.ActivePeers
    ({ ActivePeers := r.1 }, s.2 || r.2)
  | none => s

/-- Storing a JSON value into a `NetworkResult`. -/
def decodeNetworkResult (v : JSON) (cur : NetworkResult) : NetworkResult × Bool :=
  match v with
  | .obj members => members.foldl decodeNetworkResultMember (cur, false)
  | .null => (cur, false)
  | _ => (cur, true)

/-- Storing one member of a JSON object into a `NetworkInfo`. -/
def decodeNetworkInfoMember (s : NetworkInfo × Bool) (m : String × JSON) :
    NetworkInfo × Bool :=
  match findField ["result"] m.1 with
  | some _ =>
    let r := decodeNetworkResult m.2 s.1.Result
    ({ Result := r.1 }, s.2 || r.2)
  | none => s

/-- Storing a JSON value into a `NetworkInfo`. -/
def decodeNetworkInfo (v : JSON) (cur : NetworkInfo) : NetworkInfo × Bool :=
  match v with
  | .obj members => members.foldl decodeNetworkInfoMember (cur, false)
  | .null => (cur, false)
  | _ => (cur, true)

/-- The call `json.Unmarshal(body, &networkInfo)` on the zero `NetworkInfo`.  The
body is given as the scanner reads it: a syntax error, or the value it
spells.  A value that does not fit its field is skipped and reported at the
end as a type error. -/
def jsonUnmarshal (body : Except String JSON) : NetworkInfo × Option String :=
  match body with
  | .error e => (⟨⟨[]⟩⟩, some e)
  | .ok v =>
    let r := decodeNetworkInfo v ⟨⟨[]⟩⟩
    (r.1, if r.2 then some "json: cannot unmarshal value into Go struct field" else none)

/-- What the node answers to the one request of `getPeers`. -/
inductive HttpReply
  | postFailed (err : String) (ctxErr : Option String)
  | readFailed (err : String)
  | body (text : Except String JSON)

/-- The function `getPeers`. -/
def getPeers (reply : HttpReply) : Except String Peers :=
  match reply with
  | .postFailed err ctxErr =>
    match ctxErr with
    | some e => .error e
    | none => .error err
  | .readFailed err => .error err
  | .body text =>
    let r := jsonUnmarshal text
    match r.2 with
    | some err => .error err
    | none => .ok r.1.Result.ActivePeers

/-! ## The program -/

/-- What a run of `main` that does not panic has computed. -/
structure Output where
  goodPeers : Peers
  slowPeers : Peers
  badPeers : Peers
  selectedPeers : List String
  persistentPeers : String
deriving Repr

/-- The part of `main` after the peers are fetched. -/
def selectPeers (n ms : Int) (net : Nat → String → DialResult) (peers : Peers) : Output :=
  let b := classifyLoop (threshold ms) net 0 peers Buckets.empty
  let goodPeers := sort_Sort b.goodPeers
  let selectedPeers := selectLoop n 0 goodPeers []
  { goodPeers := goodPeers
    slowPeers := b.slowPeers
    badPeers := b.badPeers
    selectedPeers := selectedPeers
    persistentPeers := ",".intercalate selectedPeers }

/-- The function `main`, for the flags `-n` and `-ms`, the node's reply and the
network: the panic when the peers cannot be fetched, or the outcome. -/
def main (n ms : Int) (reply : HttpReply) (net : Nat → String → DialResult) :
    Except String Output :=
  match getPeers reply with
  | .error _ => .error "failed to fetch peers info"
  | .ok peers => .ok (selectPeers n ms net peers)

/-! ## The specification's words, to compare the code with -/

/-- The three classification outcomes of the specification. -/
inductive Bucket
  | fast
  | slow
  | unreachable
deriving DecidableEq, Repr

/-- The bucket the specification gives a probe outcome for threshold `T`:
`unreachable` when the probe failed, `slow` when it succeeded with a latency
above `T`, `fast` otherwise. -/
def specBucket (T : Duration) (d : DialResult) : Bucket :=
  match d with
  | .failed _ => .unreachable
  | .connected elapsed => if elapsed > T then .slow else .fast

/-- The peer as the specification keeps it after its probe: the latency is
recorded when the probe succeeded, the peer is left as fetched otherwise. -/
def specRecorded (d : DialResult) (p : Peer) : Peer :=
  match d with
  | .failed _ => p
  | .connected elapsed => { p with Speed := elapsed }

/-- The peers of `peers`, numbered from `k`, whose probe outcome falls into
bucket `c`, in input order and with the latency recorded. -/
def specMembers (T : Duration) (net : Nat → String → DialResult) (k : Nat)
    (peers : List Peer) (c : Bucket) : Peers :=
  (peers.enumFrom k).filterMap (fun x =>
    if specBucket T (net x.1 x.2.Addr) = c then some (specRecorded (net x.1 x.2.Addr) x.2)
    else none)

/-- The numbered peers whose probe succeeds. -/
def reachable (net : Nat → String → DialResult) (peers : List Peer) : List (Nat × Peer) :=
  (peers.enumFrom 0).filter (fun x => (checkPeerSpeed (net x.1 x.2.Addr)).2.isNone)

/-- The network as the reachable peers alone see it: the `j`-th dial of a run
over the reachable peers gets the answer the dial of that peer got in the
run over all peers. -/
def netOfReachable (net : Nat → String → DialResult) (peers : List Peer) :
    Nat → String → DialResult :=
  fun j addr => net ((reachable net peers).getD j (0, default)).1 addr

/-- A JSON value that `encoding/json` stores into a struct without a type error:
an object or `null`. -/
def JSON.fitsStruct : JSON → Bool
  | .obj _ => true
  | .null => true
  | _ => false

/-- A JSON value that `encoding/json` stores into a slice of structs without a
type error of its own: an array or `null`. -/
def JSON.fitsSlice : JSON → Bool
  | .arr _ => true
  | .null => true
  | _ => false

/-! ## Notions the proofs about `sort.Sort` are stated with -/

/-- The latency at index `k` of a slice, as `Less` reads it. -/
def key (l : Peers) (k : Nat) : Int := (l.getD k default).Speed

/-- The slice `l'` comes from `l` by moving entries around inside `[a, b)`:
it is a permutation of `l` that leaves every index outside the range alone. -/
structure Rearranged (a b : Nat) (l l' : Peers) : Prop where
  len : l'.length = l.length
  perm : l'.Perm l
  outside : ∀ k, k < a ∨ b ≤ k → l'.getD k default = l.getD k default
  inside : ∀ k, a ≤ k → k < b → ∃ k', a ≤ k' ∧ k' < b ∧ l'.getD k default = l.getD k' default

/-- The range `[a, b)` of a slice is non-decreasing in `Speed`. -/
def SortedOn (a b : Nat) (l : Peers) : Prop :=
  ∀ i j, a ≤ i → i ≤ j → j < b → key l i ≤ key l j

/-- The heap of `heapSort`, laid out from index `first`: every node from `lo`
on is at least as slow as its children below `hi`. -/
def HeapFrom (first lo hi : Nat) (l : Peers) : Prop :=
  ∀ p c, lo ≤ p → (c = 2 * p + 1 ∨ c = 2 * p + 2) → c < hi →
    key l (first + c) ≤ key l (first + p)

/-! ## Concrete runs -/

/-- The peers of the specification's scenario: `a:1`, `b:2` and `c:3`. -/
def scenarioPeers : Peers :=
  [⟨"", "a:1", "", 0⟩, ⟨"", "b:2", "", 0⟩, ⟨"", "c:3", "", 0⟩]

/-- The network of the specification's scenario: `a:1` connects in 50ms, `b:2`
in 2000ms, any other address is unreachable. -/
def scenarioNet : Nat → String → DialResult :=
  fun _ addr =>
    if addr = "a:1" then .connected (50 * Millisecond)
    else if addr = "b:2" then .connected (2000 * Millisecond)
    else .failed "dial tcp: connect: no route to host"

/-- Thirteen peers, `p0:1` to `p12:1`, as fetched. -/
def tiedPeers : Peers :=
  [⟨"", "p0:1", "", 0⟩, ⟨"", "p1:1", "", 0⟩, ⟨"", "p2:1", "", 0⟩, ⟨"", "p3:1", "", 0⟩,
   ⟨"", "p4:1", "", 0⟩, ⟨"", "p5:1", "", 0⟩, ⟨"", "p6:1", "", 0⟩, ⟨"", "p7:1", "", 0⟩,
   ⟨"", "p8:1", "", 0⟩, ⟨"", "p9:1", "", 0⟩, ⟨"", "p10:1", "", 0⟩, ⟨"", "p11:1", "", 0⟩,
   ⟨"", "p12:1", "", 0⟩]

/-- A network in which `p12:1` connects in 1ms and every other address in 5ms. -/
def tiedNet : Nat → String → DialResult :=
  fun _ addr =>
    if addr = "p12:1" then .connected (1 * Millisecond) else .connected (5 * Millisecond)

/-- The fast bucket of `tiedPeers` over `tiedNet`, before it is sorted: twelve
peers at 5ms in input order, then `p12:1` at 1ms. -/
def tiedBucket : Peers :=
  (classifyLoop (threshold 1000) tiedNet 0 tiedPeers Buckets.empty).goodPeers

/-- A fast bucket of three peers, two of them with the same latency. -/
def shortTiedBucket : Peers :=
  [⟨"", "a:1", "", 5 * Millisecond⟩, ⟨"", "b:2", "", 3 * Millisecond⟩,
   ⟨"", "c:3", "", 5 * Millisecond⟩]

/-- A JSON-RPC error reply of a node: well-formed JSON without a `result`. -/
def rpcErrorReply : JSON :=
  .obj [("jsonrpc", .str "2.0"), ("id", .str "dontcare"),
    ("error", .obj [("code", .num (.int (-32601))), ("message", .str "Method not found")])]

/-- A reply of the node that lists no active peer. -/
def emptyPeersReply : JSON :=
  .obj [("jsonrpc", .str "2.0"), ("result", .obj [("active_peers", .arr [])]),
    ("id", .str "dontcare")]

/-- A reply of the node that lists one active peer, `a:1`. -/
def singlePeerReply : JSON :=
  .obj [("jsonrpc", .str "2.0"),
    ("result", .obj [("active_peers",
      .arr [.obj [("id", .str "ed25519:abc"), ("addr", .str "a:1"), ("account_id", .null)]])]),
    ("id", .str "dontcare")]

/-! # Theorems -/

/-! ## Classification -/

theorem classifyLoop_eq (T : Duration) (net : Nat → String → DialResult) :
    ∀ (peers : List Peer) (k : Nat) (b : Buckets),
      classifyLoop T net k peers b =
        ⟨b.goodPeers ++ specMembers T net k peers .fast,
         b.slowPeers ++ specMembers T net k peers .slow,
         b.badPeers ++ specMembers T net k peers .unreachable⟩ := by
  intro peers
  induction peers with
  | nil => intro k b; simp [classifyLoop, specMembers]
  | cons p rest ih =>
    intro k b
    rw [classifyLoop, ih]
    cases h : net k p.Addr with
    | failed err =>
      simp [classifyStep, checkPeerSpeed, specMembers, List.enumFrom, List.filterMap_cons, h,
        specBucket, specRecorded]
    | connected elapsed =>
      by_cases hT : elapsed > T
      · simp [classifyStep, checkPeerSpeed, specMembers, List.enumFrom, List.filterMap_cons, h,
          specBucket, specRecorded, hT]
      · simp [classifyStep, checkPeerSpeed, specMembers, List.enumFrom, List.filterMap_cons, h,
          specBucket, specRecorded, hT]

theorem specMembers_length_sum (T : Duration) (net : Nat → String → DialResult) :
    ∀ (peers : List Peer) (k : Nat),
      (specMembers T net k peers .fast).length + (specMembers T net k peers .slow).length
        + (specMembers T net k peers .unreachable).length = peers.length := by
  intro peers
  induction peers with
  | nil => intro k; simp [specMembers]
  | cons p rest ih =>
    intro k
    have := ih (k + 1)
    simp only [specMembers] at this ⊢
    cases hb : specBucket T (net k p.Addr) <;>
      simp [List.enumFrom, List.filterMap_cons, hb] <;> omega

/-- C1: the classification loop puts every input position into exactly one of
`goodPeers`, `slowPeers`, `badPeers` (the bucket `specBucket` gives its probe
outcome), in input order, and the three lengths add up to `len(peers)`. -/
theorem classification_partitions_peers (T : Duration) (net : Nat → String → DialResult)
    (peers : List Peer) :
    (classifyLoop T net 0 peers Buckets.empty).goodPeers = specMembers T net 0 peers .fast ∧
    (classifyLoop T net 0 peers Buckets.empty).slowPeers = specMembers T net 0 peers .slow ∧
    (classifyLoop T net 0 peers Buckets.empty).badPeers
      = specMembers T net 0 peers .unreachable ∧
    (classifyLoop T net 0 peers Buckets.empty).goodPeers.length
      + (classifyLoop T net 0 peers Buckets.empty).slowPeers.length
      + (classifyLoop T net 0 peers Buckets.empty).badPeers.length = peers.length := by
  have h := specMembers_length_sum T net peers 0
  rw [classifyLoop_eq]
  simpa [Buckets.empty] using h

/-- C2: a peer whose probe succeeds with latency `L` is appended to `slowPeers`
exactly when `L > T` and to `goodPeers` exactly when `L ≤ T`, with `Speed = L`
stored, and is appended nowhere else; in the scenario of the specification
(50ms, 2000ms, unreachable; threshold 1000ms) fast is `a:1`, slow is `b:2`. -/
theorem threshold_splits_reachable (T L : Duration) (b : Buckets) (peer : Peer) :
    ((classifyStep T b peer (checkPeerSpeed (.connected L))).slowPeers
        = b.slowPeers ++ [{ peer with Speed := L }] ↔ L > T) ∧
    ((classifyStep T b peer (checkPeerSpeed (.connected L))).goodPeers
        = b.goodPeers ++ [{ peer with Speed := L }] ↔ L ≤ T) ∧
    ((classifyStep T b peer (checkPeerSpeed (.connected L))).slowPeers = b.slowPeers ↔ L ≤ T) ∧
    ((classifyStep T b peer (checkPeerSpeed (.connected L))).goodPeers = b.goodPeers ↔ L > T) ∧
    (classifyStep T b peer (checkPeerSpeed (.connected L))).badPeers = b.badPeers ∧
    classifyLoop (threshold 1000) scenarioNet 0 scenarioPeers Buckets.empty
      = ⟨[⟨"", "a:1", "", 50 * Millisecond⟩], [⟨"", "b:2", "", 2000 * Millisecond⟩],
         [⟨"", "c:3", "", 0⟩]⟩ := by
  have hne : ∀ (l : Peers) (x : Peer), l ++ [x] ≠ l := by
    intro l x h
    have := congrArg List.length h
    simp at this
  refine ⟨?_, ?_, ?_, ?_, ?_, by decide⟩
  all_goals
    by_cases hT : L > T
    all_goals simp [classifyStep, checkPeerSpeed, hT, hne]
  all_goals exact not_lt.mp hT

theorem enumFrom_map_snd_reindex (l : List (Nat × Peer)) :
    ((l.map Prod.snd).enumFrom 0).map (fun x => ((l.getD x.1 (0, default)).1, x.2)) = l := by
  apply List.ext_getElem
  · simp
  · intro i h1 h2
    simp [List.getElem?_eq_getElem h2]

theorem specMembers_netOfReachable (T : Duration) (net : Nat → String → DialResult)
    (peers : List Peer) (c : Bucket) :
    specMembers T (netOfReachable net peers) 0 ((reachable net peers).map Prod.snd) c
      = (reachable net peers).filterMap (fun x =>
          if specBucket T (net x.1 x.2.Addr) = c then some (specRecorded (net x.1 x.2.Addr) x.2)
          else none) := by
  conv_rhs => rw [← enumFrom_map_snd_reindex (reachable net peers)]
  rw [List.filterMap_map]
  rfl

theorem specMembers_reachable (T : Duration) (net : Nat → String → DialResult)
    (peers : List Peer) (c : Bucket) :
    specMembers T (netOfReachable net peers) 0 ((reachable net peers).map Prod.snd) c
      = if c = .unreachable then [] else specMembers T net 0 peers c := by
  rw [specMembers_netOfReachable, reachable, List.filterMap_filter]
  split
  · next hc =>
    subst hc
    rw [List.filterMap_eq_nil_iff]
    intro x _
    cases h : net x.1 x.2.Addr <;> simp [checkPeerSpeed, specBucket, h]
    split <;> simp
  · next hc =>
    unfold specMembers
    congr 1
    funext x
    cases h : net x.1 x.2.Addr
    · simp only [checkPeerSpeed, specBucket, h]
      have : ¬ (Bucket.unreachable = c) := fun h' => hc h'.symm
      simp [this]
    · simp [checkPeerSpeed, specBucket, h]

theorem specMembers_unreachable (T : Duration) (net : Nat → String → DialResult) :
    ∀ (peers : List Peer) (k : Nat), specMembers T net k peers .unreachable
      = ((peers.enumFrom k).filter
          (fun x => (checkPeerSpeed (net x.1 x.2.Addr)).2.isSome)).map Prod.snd := by
  intro peers
  induction peers with
  | nil => intro k; simp [specMembers]
  | cons p rest ih =>
    intro k
    have := ih (k + 1)
    simp only [specMembers] at this ⊢
    rw [List.enumFrom_cons, List.filterMap_cons, List.filter_cons, this]
    cases h : net k p.Addr with
    | failed err => simp [checkPeerSpeed, specBucket, specRecorded, h]
    | connected L =>
      by_cases hT : L > T <;> simp [checkPeerSpeed, specBucket, specRecorded, h, hT]

theorem specMembers_reachable_length (T : Duration) (net : Nat → String → DialResult) :
    ∀ (peers : List Peer) (k : Nat),
      (specMembers T net k peers .fast).length + (specMembers T net k peers .slow).length
        = ((peers.enumFrom k).filter
            (fun x => (checkPeerSpeed (net x.1 x.2.Addr)).2.isNone)).length := by
  intro peers
  induction peers with
  | nil => intro k; simp [specMembers]
  | cons p rest ih =>
    intro k
    have := ih (k + 1)
    simp only [specMembers] at this ⊢
    rw [List.enumFrom_cons, List.filterMap_cons, List.filterMap_cons, List.filter_cons]
    dsimp only
    cases h : net k p.Addr with
    | failed err =>
      have h1 : specBucket T (DialResult.failed err) = Bucket.unreachable := rfl
      have h2 : (checkPeerSpeed (DialResult.failed err)).2.isNone = false := rfl
      rw [h1, h2]
      simpa using this
    | connected L =>
      have h2 : (checkPeerSpeed (DialResult.connected L)).2.isNone = true := rfl
      rw [h2]
      by_cases hT : L > T
      · have h1 : specBucket T (DialResult.connected L) = Bucket.slow := by
          simp [specBucket, hT]
        rw [h1]
        simp only [reduceCtorEq, if_true, if_false, List.length_cons]
        omega
      · have h1 : specBucket T (DialResult.connected L) = Bucket.fast := by
          simp [specBucket, hT]
        rw [h1]
        simp only [reduceCtorEq, if_true, if_false, List.length_cons]
        omega

/-- C3: failed probes do not fail the run: once the peers are fetched `main`
ends normally; every peer whose probe fails is in `badPeers` exactly as it was
fetched; the fast and the slow bucket together have one entry for each
reachable peer and none for a failing one; and the fast bucket, the slow bucket
and the selection are those of the run over the reachable peers alone (which
has no bad peer). -/
theorem probe_failures_are_absorbed (n ms : Int) (net : Nat → String → DialResult)
    (peers : List Peer) :
    (∀ reply, getPeers reply = .ok peers →
      main n ms reply net = .ok (selectPeers n ms net peers)) ∧
    (selectPeers n ms net peers).badPeers
      = ((peers.enumFrom 0).filter
          (fun x => (checkPeerSpeed (net x.1 x.2.Addr)).2.isSome)).map Prod.snd ∧
    (classifyLoop (threshold ms) net 0 peers Buckets.empty).goodPeers.length
      + (classifyLoop (threshold ms) net 0 peers Buckets.empty).slowPeers.length
      = (reachable net peers).length ∧
    selectPeers n ms (netOfReachable net peers) ((reachable net peers).map Prod.snd)
      = { selectPeers n ms net peers with badPeers := [] } := by
  refine ⟨?_, ?_, ?_, ?_⟩
  · intro reply h
    simp [main, h]
  · simp only [selectPeers, classifyLoop_eq, Buckets.empty, List.nil_append]
    exact specMembers_unreachable _ _ _ _
  · simp only [classifyLoop_eq, Buckets.empty, List.nil_append]
    exact specMembers_reachable_length _ _ _ _
  · simp only [selectPeers, classifyLoop_eq, Buckets.empty, List.nil_append,
      specMembers_reachable]
    simp

theorem selectLoop_eq (n : Int) :
    ∀ (good : List Peer) (idx : Nat) (sel : List String),
      selectLoop n idx good sel = sel ++ (good.take (n - idx).toNat).map (fun p => p.Addr) := by
  intro good
  induction good with
  | nil => intro idx sel; simp [selectLoop]
  | cons p rest ih =>
    intro idx sel
    rw [selectLoop]
    split
    · next h =>
      have : (n - (idx : Int)).toNat = 0 := by omega
      simp [this]
    · next h =>
      have : (n - (idx : Int)).toNat = (n - ((idx + 1 : Nat) : Int)).toNat + 1 := by omega
      rw [ih, this]
      simp

/-- C6: for non-negative `n`, `selectedPeers` is the list of the `Addr` of the
first `min(n, len(goodPeers))` entries of the sorted fast bucket, in order: its
length is that minimum, it is empty for `n = 0`, and it is the whole bucket when
`n` is at least the number of fast peers; this is what `main` computes. -/
theorem selection_is_prefix_of_sorted (n : Int) (hn : 0 ≤ n) (good : Peers) :
    selectLoop n 0 good [] = (good.take n.toNat).map (fun p => p.Addr) ∧
    ((selectLoop n 0 good []).length : Int) = min n (good.length : Int) ∧
    (n = 0 → selectLoop n 0 good [] = []) ∧
    ((good.length : Int) ≤ n → selectLoop n 0 good [] = good.map (fun p => p.Addr)) ∧
    (∀ (ms : Int) (net : Nat → String → DialResult) (peers : List Peer),
      (selectPeers n ms net peers).selectedPeers
        = ((selectPeers n ms net peers).goodPeers.take n.toNat).map (fun p => p.Addr)) := by
  have key : ∀ g : Peers, selectLoop n 0 g [] = (g.take n.toNat).map (fun p => p.Addr) := by
    intro g
    rw [selectLoop_eq]
    simp
  refine ⟨key good, ?_, ?_, ?_, ?_⟩
  · rw [key]
    simp only [List.length_map, List.length_take]
    omega
  · intro h0
    rw [key, h0]
    simp
  · intro hlen
    rw [key, List.take_of_length_le (by omega)]
  · intro ms net peers
    exact key _

/-- The selection of `n = 2` from the three peers of the scenario. -/
theorem selection_is_prefix_of_sorted_witness :
    (0 : Int) ≤ 2 ∧
    selectLoop 2 0 scenarioPeers []
      = (scenarioPeers.take (2 : Int).toNat).map (fun p => p.Addr) :=
  ⟨by decide, (selection_is_prefix_of_sorted 2 (by decide) scenarioPeers).1⟩

/-- C10, evaluated: with `-ms 9223372036855` the product
`time.Duration(*ms)*time.Millisecond` wraps to a negative duration, and a probe
of one nanosecond is put into `slowPeers`, although one nanosecond does not
exceed 9223372036855 milliseconds. -/
theorem threshold_overflow_marks_fast_peer_slow :
    threshold 9223372036855 = -9223372036854551616 ∧
    (classifyStep (threshold 9223372036855) Buckets.empty ⟨"", "a:1", "", 0⟩
        (checkPeerSpeed (.connected 1))).slowPeers = [⟨"", "a:1", "", 1⟩] ∧
    (classifyStep (threshold 9223372036855) Buckets.empty ⟨"", "a:1", "", 0⟩
        (checkPeerSpeed (.connected 1))).goodPeers = [] ∧
    ¬ ((1 : Int) > 9223372036855 * 1000000) := by
  decide

/-! ## Decoding the reply -/

theorem foldl_flag_sticky {σ μ : Type} (f : σ × Bool → μ → σ × Bool)
    (hf : ∀ s m, s.2 = true → (f s m).2 = true) :
    ∀ (ms : List μ) (s : σ × Bool), s.2 = true → (ms.foldl f s).2 = true := by
  intro ms
  induction ms with
  | nil => intro s h; simpa using h
  | cons m rest ih => intro s h; exact ih _ (hf s m h)

theorem foldl_flag_of_mem {σ μ : Type} (f : σ × Bool → μ → σ × Bool)
    (hf : ∀ s m, s.2 = true → (f s m).2 = true) (m : μ) (hm : ∀ s, (f s m).2 = true) :
    ∀ (ms : List μ) (s : σ × Bool), m ∈ ms → (ms.foldl f s).2 = true := by
  intro ms
  induction ms with
  | nil => intro s h; simp at h
  | cons x rest ih =>
    intro s h
    rcases List.mem_cons.mp h with rfl | h
    · exact foldl_flag_sticky f hf rest _ (hm s)
    · exact ih _ h

theorem foldl_fixed {σ μ : Type} (f : σ → μ → σ) :
    ∀ (ms : List μ) (s : σ), (∀ m ∈ ms, f s m = s) → ms.foldl f s = s := by
  intro ms
  induction ms with
  | nil => intro s _; rfl
  | cons x rest ih =>
    intro s h
    rw [List.foldl_cons, h x (List.mem_cons_self _ _)]
    exact ih s (fun m hm => h m (List.mem_cons_of_mem _ hm))

theorem decodeNetworkResultMember_sticky (s : NetworkResult × Bool) (m : String × JSON)
    (h : s.2 = true) : (decodeNetworkResultMember s m).2 = true := by
  unfold decodeNetworkResultMember
  split <;> simp [h]

theorem decodeNetworkInfoMember_sticky (s : NetworkInfo × Bool) (m : String × JSON)
    (h : s.2 = true) : (decodeNetworkInfoMember s m).2 = true := by
  unfold decodeNetworkInfoMember
  split <;> simp [h]

theorem decodeNetworkResult_misfit (v : JSON) (cur : NetworkResult)
    (h : v.fitsStruct = false) : (decodeNetworkResult v cur).2 = true := by
  cases v <;> simp_all [JSON.fitsStruct, decodeNetworkResult]

theorem decodePeers_misfit (v : JSON) (cur : Peers) (h : v.fitsSlice = false) :
    (decodePeers v cur).2 = true := by
  cases v <;> simp_all [JSON.fitsSlice, decodePeers]

theorem decodePeer_misfit (v : JSON) (cur : Peer) (h : v.fitsStruct = false) :
    (decodePeer v cur).2 = true := by
  cases v <;> simp_all [JSON.fitsStruct, decodePeer]

theorem decodeNetworkInfo_flag_of_result (members : List (String × JSON)) (k : String)
    (v : JSON) (hmem : (k, v) ∈ members) (hk : (findField ["result"] k).isSome = true)
    (hv : ∀ cur, (decodeNetworkResult v cur).2 = true) (cur : NetworkInfo) :
    (decodeNetworkInfo (.obj members) cur).2 = true := by
  unfold decodeNetworkInfo
  refine foldl_flag_of_mem _ decodeNetworkInfoMember_sticky (k, v) ?_ _ _ hmem
  intro s
  unfold decodeNetworkInfoMember
  obtain ⟨name, hname⟩ := Option.isSome_iff_exists.mp hk
  simp [hname, hv]

theorem decodeNetworkResult_flag_of_peers (rm : List (String × JSON)) (k : String)
    (v : JSON) (hmem : (k, v) ∈ rm) (hk : (findField ["active_peers"] k).isSome = true)
    (hv : ∀ cur, (decodePeers v cur).2 = true) (cur : NetworkResult) :
    (decodeNetworkResult (.obj rm) cur).2 = true := by
  unfold decodeNetworkResult
  refine foldl_flag_of_mem _ decodeNetworkResultMember_sticky (k, v) ?_ _ _ hmem
  intro s
  unfold decodeNetworkResultMember
  obtain ⟨name, hname⟩ := Option.isSome_iff_exists.mp hk
  simp [hname, hv]

theorem getPeers_error_of_flag (v : JSON)
    (h : (decodeNetworkInfo v ⟨⟨[]⟩⟩).2 = true) :
    ∃ e, getPeers (.body (.ok v)) = .error e := by
  simp [getPeers, jsonUnmarshal, h]

theorem decodeNetworkInfo_without_result (members : List (String × JSON))
    (cur : NetworkInfo)
    (h : ∀ m ∈ members, (findField ["result"] m.1).isSome = true →
      ∃ rm, m.2 = .obj rm ∧ ∀ m' ∈ rm, findField ["active_peers"] m'.1 = none) :
    decodeNetworkInfo (.obj members) cur = (cur, false) := by
  unfold decodeNetworkInfo
  apply foldl_fixed
  intro m hm
  unfold decodeNetworkInfoMember
  cases hf : findField ["result"] m.1 with
  | none => rfl
  | some name =>
    obtain ⟨rm, hrm, hnone⟩ := h m hm (by simp [hf])
    have : decodeNetworkResult m.2 cur.Result = (cur.Result, false) := by
      rw [hrm]
      unfold decodeNetworkResult
      apply foldl_fixed
      intro m' hm'
      unfold decodeNetworkResultMember
      simp [hnone m' hm']
    simp [this]

/-- C9, as the code has it: `getPeers` returns an error for a body that is not
well-formed JSON, and for well-formed JSON in which the top-level value, a
`result` member, an `active_peers` member or an element of that array has the
wrong JSON type; a body that is an object (or `null`) in which `result` or
`active_peers` is simply missing gives no error but an empty peer list.  On
every error of `getPeers`, `main` panics before it dials any peer. -/
theorem getPeers_decode_errors :
    (∀ e, getPeers (.body (.error e)) = .error e) ∧
    (∀ v, v.fitsStruct = false → ∃ e, getPeers (.body (.ok v)) = .error e) ∧
    (∀ members k v, (k, v) ∈ members → (findField ["result"] k).isSome = true →
      v.fitsStruct = false → ∃ e, getPeers (.body (.ok (.obj members))) = .error e) ∧
    (∀ members k rm k' v', (k, JSON.obj rm) ∈ members →
      (findField ["result"] k).isSome = true → (k', v') ∈ rm →
      (findField ["active_peers"] k').isSome = true → v'.fitsSlice = false →
      ∃ e, getPeers (.body (.ok (.obj members))) = .error e) ∧
    (∀ members k rm k' xs x, (k, JSON.obj rm) ∈ members →
      (findField ["result"] k).isSome = true → (k', JSON.arr xs) ∈ rm →
      (findField ["active_peers"] k').isSome = true → x ∈ xs → x.fitsStruct = false →
      ∃ e, getPeers (.body (.ok (.obj members))) = .error e) ∧
    getPeers (.body (.ok .null)) = .ok [] ∧
    (∀ members, (∀ m ∈ members, findField ["result"] m.1 = none) →
      getPeers (.body (.ok (.obj members))) = .ok []) ∧
    (∀ members, (∀ m ∈ members, (findField ["result"] m.1).isSome = true →
        ∃ rm, m.2 = .obj rm ∧ ∀ m' ∈ rm, findField ["active_peers"] m'.1 = none) →
      getPeers (.body (.ok (.obj members))) = .ok []) ∧
    (∀ (n ms : Int) (reply : HttpReply) (net : Nat → String → DialResult) (e : String),
      getPeers reply = .error e → main n ms reply net = .error "failed to fetch peers info") := by
  refine ⟨?_, ?_, ?_, ?_, ?_, ?_, ?_, ?_, ?_⟩
  · intro e; rfl
  · intro v hv
    apply getPeers_error_of_flag
    cases v <;> simp_all [JSON.fitsStruct, decodeNetworkInfo]
  · intro members k v hmem hk hv
    apply getPeers_error_of_flag
    exact decodeNetworkInfo_flag_of_result members k v hmem hk
      (fun cur => decodeNetworkResult_misfit v cur hv) _
  · intro members k rm k' v' hmem hk hmem' hk' hv'
    apply getPeers_error_of_flag
    exact decodeNetworkInfo_flag_of_result members k _ hmem hk
      (fun cur => decodeNetworkResult_flag_of_peers rm k' v' hmem' hk'
        (fun c => decodePeers_misfit v' c hv') cur) _
  · intro members k rm k' xs x hmem hk hmem' hk' hx hfit
    apply getPeers_error_of_flag
    refine decodeNetworkInfo_flag_of_result members k _ hmem hk
      (fun cur => decodeNetworkResult_flag_of_peers rm k' _ hmem' hk' (fun c => ?_) cur) _
    simp only [decodePeers, List.any_eq_true]
    exact ⟨_, List.mem_map.mpr ⟨x, hx, rfl⟩, decodePeer_misfit x _ hfit⟩
  · rfl
  · intro members h
    have := decodeNetworkInfo_without_result members ⟨⟨[]⟩⟩
      (fun m hm hs => by simp [h m hm] at hs)
    simp [getPeers, jsonUnmarshal, this]
  · intro members h
    have := decodeNetworkInfo_without_result members ⟨⟨[]⟩⟩ h
    simp [getPeers, jsonUnmarshal, this]
  · intro n ms reply net e h
    simp [main, h]

/-- C9 fails as stated: the well-formed JSON-RPC error reply, which has no
`result` member, makes `getPeers` return an empty peer list and no error, and
`main` runs to its end. -/
theorem getPeers_accepts_reply_without_result :
    getPeers (.body (.ok rpcErrorReply)) = .ok [] ∧
    main 30 1000 (.body (.ok rpcErrorReply)) scenarioNet = .ok ⟨[], [], [], [], ""⟩ := by
  constructor <;> rfl

/-! ## Sorting: swaps and rearrangements of a range -/

theorem Less_iff (l : Peers) (i j : Nat) : l.Less i j = true ↔ key l i < key l j := by
  simp [Peers.Less, key]

theorem Less_false_iff (l : Peers) (i j : Nat) : l.Less i j = false ↔ key l j ≤ key l i := by
  simp [Peers.Less, key]

theorem Swap_length (l : Peers) (i j : Nat) : (l.Swap i j).length = l.length := by
  simp [Peers.Swap]

theorem Swap_getD (l : Peers) (i j k : Nat) (hi : i < l.length) (hj : j < l.length) :
    (l.Swap i j).getD k default
      = if k = j then l.getD i default else if k = i then l.getD j default
        else l.getD k default := by
  unfold Peers.Swap
  simp only [List.getD_eq_getElem?_getD, List.getElem?_set, List.length_set]
  by_cases h1 : k = j
  · subst h1
    simp [hj]
  · by_cases h2 : k = i
    · subst h2
      simp [hi, h1, Ne.symm h1]
    · simp [h1, h2, Ne.symm h1, Ne.symm h2]

theorem Swap_key (l : Peers) (i j k : Nat) (hi : i < l.length) (hj : j < l.length) :
    key (l.Swap i j) k = if k = j then key l i else if k = i then key l j else key l k := by
  unfold key
  rw [Swap_getD l i j k hi hj]
  split
  · rfl
  · split <;> rfl

theorem Swap_perm (l : Peers) (i j : Nat) (hi : i < l.length) (hj : j < l.length) :
    (l.Swap i j).Perm l := by
  rw [List.perm_iff_count]
  intro x
  unfold Peers.Swap
  have hj' : j < (l.set i (l.getD j default)).length := by simpa using hj
  rw [List.count_set _ _ _ _ hj', List.count_set _ _ _ _ hi]
  have e1 : l.getD i default = l[i] := List.getD_eq_getElem _ _ hi
  have e2 : l.getD j default = l[j] := List.getD_eq_getElem _ _ hj
  have e3 : (l.set i (l.getD j default))[j] = l[j] := by
    rw [List.getElem_set]
    split
    · exact e2
    · rfl
  rw [e3, e1, e2]
  by_cases h1 : (l[i] == x) = true
  · have hpos : 0 < l.count x := by
      have : l[i] = x := by simpa using h1
      rw [List.count_pos_iff]
      exact this ▸ List.getElem_mem _
    by_cases h2 : (l[j] == x) = true
    · simp only [h1, h2, if_true]
      omega
    · simp only [h1, h2, if_true, if_false, Bool.false_eq_true]
      omega
  · by_cases h2 : (l[j] == x) = true
    · simp only [h1, h2, if_true, if_false, Bool.false_eq_true]
      omega
    · simp only [h1, h2, if_false, Bool.false_eq_true]
      omega

theorem Rearranged.refl (a b : Nat) (l : Peers) : Rearranged a b l l :=
  ⟨rfl, List.Perm.refl _, fun _ _ => rfl, fun k h1 h2 => ⟨k, h1, h2, rfl⟩⟩

theorem Rearranged.trans {a b : Nat} {l₁ l₂ l₃ : Peers} (h₁ : Rearranged a b l₁ l₂)
    (h₂ : Rearranged a b l₂ l₃) : Rearranged a b l₁ l₃ := by
  refine ⟨h₂.len.trans h₁.len, h₂.perm.trans h₁.perm, ?_, ?_⟩
  · intro k hk
    rw [h₂.outside k hk, h₁.outside k hk]
  · intro k h1 h2
    obtain ⟨k', h1', h2', e⟩ := h₂.inside k h1 h2
    obtain ⟨k'', h1'', h2'', e'⟩ := h₁.inside k' h1' h2'
    exact ⟨k'', h1'', h2'', e.trans e'⟩

theorem Rearranged.mono {a b a' b' : Nat} {l l' : Peers} (h : Rearranged a b l l')
    (ha : a' ≤ a) (hb : b ≤ b') : Rearranged a' b' l l' := by
  refine ⟨h.len, h.perm, ?_, ?_⟩
  · intro k hk
    exact h.outside k (by omega)
  · intro k h1 h2
    by_cases hin : a ≤ k ∧ k < b
    · obtain ⟨k', h1', h2', e⟩ := h.inside k hin.1 hin.2
      exact ⟨k', by omega, by omega, e⟩
    · exact ⟨k, h1, h2, h.outside k (by omega)⟩

theorem Rearranged.swap (a b : Nat) (l : Peers) (i j : Nat) (hai : a ≤ i) (hib : i < b)
    (haj : a ≤ j) (hjb : j < b) (hb : b ≤ l.length) : Rearranged a b l (l.Swap i j) := by
  have hi : i < l.length := by omega
  have hj : j < l.length := by omega
  refine ⟨Swap_length l i j, Swap_perm l i j hi hj, ?_, ?_⟩
  · intro k hk
    rw [Swap_getD l i j k hi hj]
    have h1 : k ≠ j := by omega
    have h2 : k ≠ i := by omega
    simp [h1, h2]
  · intro k h1 h2
    rw [Swap_getD l i j k hi hj]
    by_cases e1 : k = j
    · exact ⟨i, hai, hib, by rw [if_pos e1]⟩
    · by_cases e2 : k = i
      · exact ⟨j, haj, hjb, by rw [if_neg e1, if_pos e2]⟩
      · exact ⟨k, h1, h2, by rw [if_neg e1, if_neg e2]⟩

theorem Rearranged.key_outside {a b : Nat} {l l' : Peers} (h : Rearranged a b l l') (k : Nat)
    (hk : k < a ∨ b ≤ k) : key l' k = key l k := by
  unfold key
  rw [h.outside k hk]

theorem Rearranged.key_inside {a b : Nat} {l l' : Peers} (h : Rearranged a b l l') (k : Nat)
    (h1 : a ≤ k) (h2 : k < b) : ∃ k', a ≤ k' ∧ k' < b ∧ key l' k = key l k' := by
  obtain ⟨k', h1', h2', e⟩ := h.inside k h1 h2
  exact ⟨k', h1', h2', by unfold key; rw [e]⟩

/-- A bound that holds for every entry of the range before a rearrangement
holds for every entry after it. -/
theorem Rearranged.forall_key {a b : Nat} {l l' : Peers} (h : Rearranged a b l l')
    (P : Int → Prop) (hP : ∀ k, a ≤ k → k < b → P (key l k)) :
    ∀ k, a ≤ k → k < b → P (key l' k) := by
  intro k h1 h2
  obtain ⟨k', h1', h2', e⟩ := h.key_inside k h1 h2
  rw [e]
  exact hP k' h1' h2'

theorem SortedOn.of_adjacent (a b : Nat) (l : Peers)
    (h : ∀ i, a ≤ i → i + 1 < b → key l i ≤ key l (i + 1)) : SortedOn a b l := by
  intro i j hai hij hjb
  induction j with
  | zero =>
    have : i = 0 := by omega
    subst this
    exact le_refl _
  | succ j ih =>
    by_cases e : i = j + 1
    · subst e
      exact le_refl _
    · exact le_trans (ih (by omega) (by omega)) (h j (by omega) hjb)

theorem SortedOn.of_outside {a b : Nat} {l l' : Peers} (hs : SortedOn a b l)
    (h : ∀ k, a ≤ k → k < b → l'.getD k default = l.getD k default) : SortedOn a b l' := by
  intro i j hai hij hjb
  have e1 : key l' i = key l i := by unfold key; rw [h i hai (by omega)]
  have e2 : key l' j = key l j := by unfold key; rw [h j (by omega) hjb]
  rw [e1, e2]
  exact hs i j hai hij hjb

/-! ## Insertion sort -/

theorem insertionSortInner_spec (a : Nat) :
    ∀ (j : Nat) (data : Peers) (i : Nat), a ≤ j → j ≤ i → i < data.length →
      SortedOn a j data → SortedOn j (i + 1) data →
      (∀ x y, a ≤ x → x < j → j < y → y ≤ i → key data x ≤ key data y) →
      Rearranged a (i + 1) data (insertionSortInner a j data) ∧
        SortedOn a (i + 1) (insertionSortInner a j data) := by
  intro j
  induction j with
  | zero =>
    intro data i ha _ _ _ h2 _
    have : a = 0 := by omega
    subst this
    exact ⟨Rearranged.refl _ _ _, h2⟩
  | succ j ih =>
    intro data i ha hji hi h1 h2 h3
    rw [insertionSortInner]
    split
    · next hc =>
      obtain ⟨haj, hless⟩ := hc
      rw [Less_iff] at hless
      have hj1 : j + 1 < data.length := by omega
      have hj0 : j < data.length := by omega
      have hk := fun k => Swap_key data (j + 1) j k hj1 hj0
      have hlen := Swap_length data (j + 1) j
      have hsw : Rearranged a (i + 1) data (data.Swap (j + 1) j) :=
        Rearranged.swap a (i + 1) data (j + 1) j (by omega) (by omega) (by omega) (by omega)
          (by omega)
      have := ih (data.Swap (j + 1) j) i (by omega) (by omega) (by omega) ?_ ?_ ?_
      · exact ⟨hsw.trans this.1, this.2⟩
      · intro x y hx hxy hy
        rw [hk, hk, if_neg (by omega), if_neg (by omega), if_neg (by omega), if_neg (by omega)]
        exact h1 x y hx hxy (by omega)
      · intro x y hx hxy hy
        rw [hk, hk]
        by_cases ex : x = j
        · subst ex
          rw [if_pos rfl]
          by_cases ey : y = x
          · rw [if_pos ey]
          · rw [if_neg ey]
            by_cases ey' : y = x + 1
            · rw [if_pos ey']
              exact le_of_lt hless
            · rw [if_neg ey']
              exact h2 (x + 1) y (by omega) (by omega) hy
        · rw [if_neg ex, if_neg (by omega : ¬ y = j)]
          by_cases ex' : x = j + 1
          · rw [if_pos ex']
            by_cases ey' : y = j + 1
            · rw [if_pos ey']
            · rw [if_neg ey']
              exact h3 j y (by omega) (by omega) (by omega) (by omega)
          · rw [if_neg ex', if_neg (by omega : ¬ y = j + 1)]
            exact h2 x y (by omega) hxy hy
      · intro x y hx hxj hjy hyi
        rw [hk, hk, if_neg (by omega), if_neg (by omega), if_neg (by omega)]
        by_cases ey' : y = j + 1
        · rw [if_pos ey']
          exact h1 x j hx (by omega) (by omega)
        · rw [if_neg ey']
          exact h3 x y hx (by omega) (by omega) hyi
    · next hc =>
      refine ⟨Rearranged.refl _ _ _, ?_⟩
      by_cases haj : a < j + 1
      · have hle : key data j ≤ key data (j + 1) := by
          rw [← Less_false_iff]
          by_contra hcon
          exact hc ⟨haj, by simpa using hcon⟩
        intro x y hx hxy hy
        by_cases hyj : y < j + 1
        · exact h1 x y hx hxy hyj
        · by_cases hxj : j + 1 ≤ x
          · exact h2 x y hxj hxy hy
          · exact le_trans (h1 x j hx (by omega) (by omega))
              (le_trans hle (h2 (j + 1) y (le_refl _) (by omega) hy))
      · have : a = j + 1 := by omega
        subst this
        exact h2

theorem insertionSort_loop_spec (a : Nat) :
    ∀ (n i : Nat) (data : Peers), a < i → i + n ≤ data.length → SortedOn a i data →
      Rearranged a (i + n) data
          ((List.range' i n).foldl (fun d i => insertionSortInner a i d) data) ∧
        SortedOn a (i + n)
          ((List.range' i n).foldl (fun d i => insertionSortInner a i d) data) := by
  intro n
  induction n with
  | zero =>
    intro i data _ _ hs
    exact ⟨Rearranged.refl _ _ _, hs⟩
  | succ n ih =>
    intro i data hai hlen hs
    rw [List.range'_succ, List.foldl_cons]
    have h := insertionSortInner_spec a i data i (by omega) (le_refl _) (by omega) hs
      (fun x y hx hxy hy => by
        have : x = y := by omega
        subst this
        exact le_refl _)
      (fun x y _ _ h1 h2 => by omega)
    have h' := ih (i + 1) (insertionSortInner a i data) (by omega)
      (by rw [h.1.len]; omega) h.2
    have e : i + 1 + n = i + (n + 1) := by omega
    rw [e] at h'
    exact ⟨(h.1.mono (le_refl _) (by omega)).trans h'.1, h'.2⟩

theorem insertionSort_spec (data : Peers) (a b : Nat) (hb : b ≤ data.length) :
    Rearranged a b data (insertionSort data a b) ∧ SortedOn a b (insertionSort data a b) := by
  unfold insertionSort
  by_cases h : a + 1 < b
  · have := insertionSort_loop_spec a (b - (a + 1)) (a + 1) data (by omega) (by omega)
      (fun x y hx hxy hy => by
        have : x = y := by omega
        subst this
        exact le_refl _)
    have e : a + 1 + (b - (a + 1)) = b := by omega
    rw [e] at this
    exact this
  · have e : b - (a + 1) = 0 := by omega
    rw [e]
    refine ⟨Rearranged.refl _ _ _, ?_⟩
    intro x y hx hxy hy
    have : x = y := by omega
    subst this
    exact le_refl _

/-! ## Partitioning -/

theorem scanLessUp_spec (data : Peers) (a j : Nat) :
    ∀ (fuel i : Nat), j + 1 - i ≤ fuel →
      i ≤ scanLessUp data a j fuel i ∧
      (i ≤ j + 1 → scanLessUp data a j fuel i ≤ j + 1) ∧
      (∀ k, i ≤ k → k < scanLessUp data a j fuel i → key data k < key data a) ∧
      (scanLessUp data a j fuel i ≤ j → key data a ≤ key data (scanLessUp data a j fuel i)) := by
  intro fuel
  induction fuel with
  | zero =>
    intro i h
    simp only [scanLessUp]
    exact ⟨le_refl _, fun h' => h', fun k h1 h2 => by omega, fun h' => by omega⟩
  | succ fuel ih =>
    intro i h
    rw [scanLessUp]
    split
    · next hc =>
      obtain ⟨h1, h2, h3, h4⟩ := ih (i + 1) (by omega)
      refine ⟨by omega, fun _ => h2 (by omega), ?_, h4⟩
      intro k hk1 hk2
      by_cases e : k = i
      · subst e
        exact (Less_iff _ _ _).mp hc.2
      · exact h3 k (by omega) hk2
    · next hc =>
      refine ⟨le_refl _, fun h' => h', fun k h1 h2 => by omega, fun h' => ?_⟩
      rw [← Less_false_iff]
      by_contra hcon
      exact hc ⟨h', by simpa using hcon⟩

theorem scanNotLessDown_spec (data : Peers) (a i : Nat) (hi : 1 ≤ i) :
    ∀ (j : Nat),
      scanNotLessDown data a i j ≤ j ∧
      (i ≤ j + 1 → i ≤ scanNotLessDown data a i j + 1) ∧
      (∀ k, scanNotLessDown data a i j < k → k ≤ j → key data a ≤ key data k) ∧
      (i ≤ scanNotLessDown data a i j →
        key data (scanNotLessDown data a i j) < key data a) := by
  intro j
  induction j with
  | zero =>
    simp only [scanNotLessDown]
    exact ⟨le_refl _, fun h => h, fun k h1 h2 => by omega, fun h => by omega⟩
  | succ j ih =>
    rw [scanNotLessDown]
    split
    · next hc =>
      obtain ⟨h1, h2, h3, h4⟩ := ih
      refine ⟨by omega, fun _ => ?_, ?_, h4⟩
      · by_cases e : i ≤ j + 1 - 1 + 1
        · exact h2 (by omega)
        · omega
      · intro k hk1 hk2
        by_cases e : k = j + 1
        · subst e
          exact (Less_false_iff _ _ _).mp hc.2
        · exact h3 k hk1 (by omega)
    · next hc =>
      refine ⟨le_refl _, fun h' => h', fun k h1 h2 => by omega, fun h' => ?_⟩
      rw [← Less_iff]
      by_contra hcon
      exact hc ⟨h', by simpa using hcon⟩

/-- One round of the scans of `partition`, from a state in which everything
left of `i` is below the pivot at `a` and everything right of `j` is not. -/
theorem partition_scans (data : Peers) (a b i j : Nat) (hai : a + 1 ≤ i) (_hjb : j + 1 ≤ b)
    (hij : i ≤ j + 1)
    (hl : ∀ k, a < k → k < i → key data k < key data a)
    (hr : ∀ k, j < k → k < b → key data a ≤ key data k) :
    i ≤ scanLessUp data a j (j + 1 - i) i ∧
    scanNotLessDown data a (scanLessUp data a j (j + 1 - i) i) j ≤ j ∧
    scanLessUp data a j (j + 1 - i) i
      ≤ scanNotLessDown data a (scanLessUp data a j (j + 1 - i) i) j + 1 ∧
    (∀ k, a < k → k < scanLessUp data a j (j + 1 - i) i → key data k < key data a) ∧
    (∀ k, scanNotLessDown data a (scanLessUp data a j (j + 1 - i) i) j < k → k < b →
      key data a ≤ key data k) ∧
    (scanLessUp data a j (j + 1 - i) i
        ≤ scanNotLessDown data a (scanLessUp data a j (j + 1 - i) i) j →
      key data a ≤ key data (scanLessUp data a j (j + 1 - i) i) ∧
      key data (scanNotLessDown data a (scanLessUp data a j (j + 1 - i) i) j)
        < key data a) := by
  obtain ⟨u1, u2, u3, u4⟩ := scanLessUp_spec data a j (j + 1 - i) i (le_refl _)
  generalize scanLessUp data a j (j + 1 - i) i = i' at *
  obtain ⟨d1, d2, d3, d4⟩ := scanNotLessDown_spec data a i' (by omega) j
  generalize scanNotLessDown data a i' j = j' at *
  refine ⟨u1, d1, d2 (u2 hij), ?_, ?_, ?_⟩
  · intro k hk1 hk2
    by_cases e : k < i
    · exact hl k hk1 e
    · exact u3 k (by omega) hk2
  · intro k hk1 hk2
    by_cases e : j < k
    · exact hr k e hk2
    · exact d3 k hk1 (by omega)
  · intro h
    exact ⟨u4 (by omega), d4 h⟩

/-- The exchange `data.Swap(i, j); i++; j--` of `partition` keeps the state. -/
theorem partition_exchange (data : Peers) (a b i j : Nat) (hai : a + 1 ≤ i) (hjb : j + 1 ≤ b)
    (hb : b ≤ data.length) (hij : i ≤ j)
    (hl : ∀ k, a < k → k < i → key data k < key data a)
    (hr : ∀ k, j < k → k < b → key data a ≤ key data k)
    (hi : key data a ≤ key data i) (hj : key data j < key data a) :
    i < j ∧ Rearranged (a + 1) b data (data.Swap i j) ∧
    key (data.Swap i j) a = key data a ∧
    (∀ k, a < k → k < i + 1 → key (data.Swap i j) k < key (data.Swap i j) a) ∧
    (∀ k, j - 1 < k → k < b → key (data.Swap i j) a ≤ key (data.Swap i j) k) := by
  have hne : i ≠ j := by
    intro e
    subst e
    omega
  have hlt : i < j := by omega
  have hk := fun k => Swap_key data i j k (by omega) (by omega)
  have hka : key (data.Swap i j) a = key data a := by
    rw [hk, if_neg (by omega), if_neg (by omega)]
  refine ⟨hlt, Rearranged.swap _ _ _ _ _ (by omega) (by omega) (by omega) (by omega) hb,
    hka, ?_, ?_⟩
  · intro k hk1 hk2
    rw [hka, hk, if_neg (by omega)]
    by_cases e : k = i
    · rw [if_pos e]
      exact hj
    · rw [if_neg e]
      exact hl k hk1 (by omega)
  · intro k hk1 hk2
    rw [hka, hk]
    by_cases e : k = j
    · rw [if_pos e]
      exact hi
    · rw [if_neg e, if_neg (by omega)]
      exact hr k (by omega) hk2

theorem partitionLoop_spec (a b : Nat) :
    ∀ (fuel i j : Nat) (data : Peers), b ≤ data.length → a + 1 ≤ i → j + 1 ≤ b → i ≤ j + 1 →
      (∀ k, a < k → k < i → key data k < key data a) →
      (∀ k, j < k → k < b → key data a ≤ key data k) →
      j + 1 - i ≤ fuel →
      Rearranged (a + 1) b data (partitionLoop a fuel i j data).2 ∧
      a ≤ (partitionLoop a fuel i j data).1 ∧ (partitionLoop a fuel i j data).1 < b ∧
      (∀ k, a < k → k ≤ (partitionLoop a fuel i j data).1 →
        key (partitionLoop a fuel i j data).2 k < key (partitionLoop a fuel i j data).2 a) ∧
      (∀ k, (partitionLoop a fuel i j data).1 < k → k < b →
        key (partitionLoop a fuel i j data).2 a ≤ key (partitionLoop a fuel i j data).2 k) := by
  intro fuel
  induction fuel with
  | zero =>
    intro i j data hb hai hjb hij hl hr hf
    simp only [partitionLoop]
    exact ⟨Rearranged.refl _ _ _, by omega, by omega, fun k h1 h2 => hl k h1 (by omega), hr⟩
  | succ fuel ih =>
    intro i j data hb hai hjb hij hl hr hf
    rw [partitionLoop]
    obtain ⟨s1, s2, s3, s4, s5, s6⟩ := partition_scans data a b i j hai hjb hij hl hr
    generalize scanLessUp data a j (j + 1 - i) i = i' at *
    generalize scanNotLessDown data a i' j = j' at *
    split
    · next hc =>
      exact ⟨Rearranged.refl _ _ _, by omega, by omega, fun k h1 h2 => s4 k h1 (by omega), s5⟩
    · next hc =>
      obtain ⟨e1, e2, e3, e4, e5⟩ := partition_exchange data a b i' j' (by omega) (by omega) hb
        (by omega) s4 s5 (s6 (by omega)).1 (s6 (by omega)).2
      obtain ⟨r1, r2, r3, r4, r5⟩ := ih (i' + 1) (j' - 1) (data.Swap i' j')
        (by rw [Swap_length]; exact hb) (by omega) (by omega) (by omega) e4 e5 (by omega)
      exact ⟨e2.trans r1, r2, r3, r4, r5⟩

theorem partition_spec (data : Peers) (a b pivot : Nat) (hap : a ≤ pivot) (hpb : pivot < b)
    (hb : b ≤ data.length) :
    Rearranged a b data (partition data a b pivot).1 ∧
    a ≤ (partition data a b pivot).2.1 ∧ (partition data a b pivot).2.1 < b ∧
    (∀ k, a ≤ k → k < (partition data a b pivot).2.1 →
      key (partition data a b pivot).1 k
        < key (partition data a b pivot).1 (partition data a b pivot).2.1) ∧
    (∀ k, (partition data a b pivot).2.1 < k → k < b →
      key (partition data a b pivot).1 (partition data a b pivot).2.1
        ≤ key (partition data a b pivot).1 k) := by
  have h0 : Rearranged a b data (data.Swap a pivot) :=
    Rearranged.swap _ _ _ _ _ (le_refl _) (by omega) hap hpb hb
  -- the last step: the pivot goes from `a` to `j`
  have finish : ∀ (d : Peers) (j : Nat), Rearranged a b data d → a ≤ j → j < b →
      (∀ k, a < k → k ≤ j → key d k < key d a) →
      (∀ k, j < k → k < b → key d a ≤ key d k) →
      Rearranged a b data (d.Swap j a) ∧ a ≤ j ∧ j < b ∧
      (∀ k, a ≤ k → k < j → key (d.Swap j a) k < key (d.Swap j a) j) ∧
      (∀ k, j < k → k < b → key (d.Swap j a) j ≤ key (d.Swap j a) k) := by
    intro d j hd haj hjb hl hr
    have hdl : b ≤ d.length := by rw [hd.len]; exact hb
    have hk := fun k => Swap_key d j a k (by omega) (by omega)
    have hkj : key (d.Swap j a) j = key d a := by
      rw [hk]
      by_cases e : j = a
      · rw [if_pos e, e]
      · rw [if_neg e, if_pos rfl]
    refine ⟨hd.trans (Rearranged.swap _ _ _ _ _ haj hjb (le_refl _) (by omega) hdl),
      haj, hjb, ?_, ?_⟩
    · intro k hk1 hk2
      rw [hkj, hk]
      by_cases e : k = a
      · rw [if_pos e]
        exact hl j (by omega) (le_refl _)
      · rw [if_neg e, if_neg (by omega)]
        exact hl k (by omega) (by omega)
    · intro k hk1 hk2
      rw [hkj, hk, if_neg (by omega), if_neg (by omega)]
      exact hr k hk1 hk2
  unfold partition
  simp only []
  have hlen1 : b ≤ (data.Swap a pivot).length := by rw [Swap_length]; exact hb
  obtain ⟨s1, s2, s3, s4, s5, s6⟩ := partition_scans (data.Swap a pivot) a b (a + 1) (b - 1)
    (le_refl _) (by omega) (by omega) (fun k h1 h2 => by omega) (fun k h1 h2 => by omega)
  generalize scanLessUp (data.Swap a pivot) a (b - 1) (b - 1 + 1 - (a + 1)) (a + 1) = i' at *
  generalize scanNotLessDown (data.Swap a pivot) a i' (b - 1) = j' at *
  split
  · next hc =>
    exact finish _ j' h0 (by omega) (by omega) (fun k h1 h2 => s4 k h1 (by omega)) s5
  · next hc =>
    obtain ⟨e1, e2, e3, e4, e5⟩ := partition_exchange (data.Swap a pivot) a b i' j' (by omega)
      (by omega) hlen1 (by omega) s4 s5 (s6 (by omega)).1 (s6 (by omega)).2
    obtain ⟨r1, r2, r3, r4, r5⟩ := partitionLoop_spec a b (b - a) (i' + 1) (j' - 1)
      ((data.Swap a pivot).Swap i' j') (by rw [Swap_length]; exact hlen1) (by omega) (by omega)
      (by omega) e4 e5 (by omega)
    exact finish _ _ (h0.trans ((e2.trans r1).mono (by omega) (le_refl _))) r2 r3 r4 r5

/-! ## Partitioning off the entries equal to the pivot -/

theorem scanNotGreaterUp_spec (data : Peers) (a j : Nat) :
    ∀ (fuel i : Nat), j + 1 - i ≤ fuel →
      i ≤ scanNotGreaterUp data a j fuel i ∧
      (i ≤ j + 1 → scanNotGreaterUp data a j fuel i ≤ j + 1) ∧
      (∀ k, i ≤ k → k < scanNotGreaterUp data a j fuel i → key data k ≤ key data a) ∧
      (scanNotGreaterUp data a j fuel i ≤ j →
        key data a < key data (scanNotGreaterUp data a j fuel i)) := by
  intro fuel
  induction fuel with
  | zero =>
    intro i h
    simp only [scanNotGreaterUp]
    exact ⟨le_refl _, fun h' => h', fun k h1 h2 => by omega, fun h' => by omega⟩
  | succ fuel ih =>
    intro i h
    rw [scanNotGreaterUp]
    split
    · next hc =>
      obtain ⟨h1, h2, h3, h4⟩ := ih (i + 1) (by omega)
      refine ⟨by omega, fun _ => h2 (by omega), ?_, h4⟩
      intro k hk1 hk2
      by_cases e : k = i
      · subst e
        exact (Less_false_iff _ _ _).mp hc.2
      · exact h3 k (by omega) hk2
    · next hc =>
      refine ⟨le_refl _, fun h' => h', fun k h1 h2 => by omega, fun h' => ?_⟩
      rw [← Less_iff]
      by_contra hcon
      exact hc ⟨h', by simpa using hcon⟩

theorem scanGreaterDown_spec (data : Peers) (a i : Nat) (hi : 1 ≤ i) :
    ∀ (j : Nat),
      scanGreaterDown data a i j ≤ j ∧
      (i ≤ j + 1 → i ≤ scanGreaterDown data a i j + 1) ∧
      (∀ k, scanGreaterDown data a i j < k → k ≤ j → key data a < key data k) ∧
      (i ≤ scanGreaterDown data a i j →
        key data (scanGreaterDown data a i j) ≤ key data a) := by
  intro j
  induction j with
  | zero =>
    simp only [scanGreaterDown]
    exact ⟨le_refl _, fun h => h, fun k h1 h2 => by omega, fun h => by omega⟩
  | succ j ih =>
    rw [scanGreaterDown]
    split
    · next hc =>
      obtain ⟨h1, h2, h3, h4⟩ := ih
      refine ⟨by omega, fun _ => ?_, ?_, h4⟩
      · by_cases e : i ≤ j + 1 - 1 + 1
        · exact h2 (by omega)
        · omega
      · intro k hk1 hk2
        by_cases e : k = j + 1
        · subst e
          exact (Less_iff _ _ _).mp hc.2
        · exact h3 k hk1 (by omega)
    · next hc =>
      refine ⟨le_refl _, fun h' => h', fun k h1 h2 => by omega, fun h' => ?_⟩
      rw [← Less_false_iff]
      by_contra hcon
      exact hc ⟨h', by simpa using hcon⟩

theorem partitionEqualLoop_spec (a b : Nat) :
    ∀ (fuel i j : Nat) (data : Peers), b ≤ data.length → a + 1 ≤ i → j + 1 ≤ b → i ≤ j + 1 →
      (∀ k, a < k → k < i → key data k ≤ key data a) →
      (∀ k, j < k → k < b → key data a < key data k) →
      j + 1 - i ≤ fuel →
      Rearranged (a + 1) b data (partitionEqualLoop a fuel i j data).2 ∧
      a + 1 ≤ (partitionEqualLoop a fuel i j data).1 ∧
      (partitionEqualLoop a fuel i j data).1 ≤ b ∧
      (∀ k, a < k → k < (partitionEqualLoop a fuel i j data).1 →
        key (partitionEqualLoop a fuel i j data).2 k
          ≤ key (partitionEqualLoop a fuel i j data).2 a) ∧
      (∀ k, (partitionEqualLoop a fuel i j data).1 ≤ k → k < b →
        key (partitionEqualLoop a fuel i j data).2 a
          < key (partitionEqualLoop a fuel i j data).2 k) := by
  intro fuel
  induction fuel with
  | zero =>
    intro i j data hb hai hjb hij hl hr hf
    simp only [partitionEqualLoop]
    exact ⟨Rearranged.refl _ _ _, by omega, by omega, hl, fun k h1 h2 => hr k (by omega) h2⟩
  | succ fuel ih =>
    intro i j data hb hai hjb hij hl hr hf
    rw [partitionEqualLoop]
    obtain ⟨u1, u2, u3, u4⟩ := scanNotGreaterUp_spec data a j (j + 1 - i) i (le_refl _)
    generalize scanNotGreaterUp data a j (j + 1 - i) i = i' at *
    obtain ⟨d1, d2, d3, d4⟩ := scanGreaterDown_spec data a i' (by omega) j
    generalize scanGreaterDown data a i' j = j' at *
    have hl' : ∀ k, a < k → k < i' → key data k ≤ key data a := by
      intro k hk1 hk2
      by_cases e : k < i
      · exact hl k hk1 e
      · exact u3 k (by omega) hk2
    have hr' : ∀ k, j' < k → k < b → key data a < key data k := by
      intro k hk1 hk2
      by_cases e : j < k
      · exact hr k e hk2
      · exact d3 k hk1 (by omega)
    have hij' : i' ≤ j' + 1 := d2 (u2 hij)
    split
    · next hc =>
      exact ⟨Rearranged.refl _ _ _, by omega, by omega, hl',
        fun k h1 h2 => hr' k (by omega) h2⟩
    · next hc =>
      have hi' : key data a < key data i' := u4 (by omega)
      have hj' : key data j' ≤ key data a := d4 (by omega)
      have hne : i' ≠ j' := by
        intro e
        subst e
        omega
      have hk := fun k => Swap_key data i' j' k (by omega) (by omega)
      have hka : key (data.Swap i' j') a = key data a := by
        rw [hk, if_neg (by omega), if_neg (by omega)]
      have hsw : Rearranged (a + 1) b data (data.Swap i' j') :=
        Rearranged.swap _ _ _ _ _ (by omega) (by omega) (by omega) (by omega) hb
      obtain ⟨r1, r2, r3, r4, r5⟩ := ih (i' + 1) (j' - 1) (data.Swap i' j')
        (by rw [Swap_length]; exact hb) (by omega) (by omega) (by omega)
        (by
          intro k hk1 hk2
          rw [hka, hk, if_neg (by omega)]
          by_cases e : k = i'
          · rw [if_pos e]
            exact hj'
          · rw [if_neg e]
            exact hl' k hk1 (by omega))
        (by
          intro k hk1 hk2
          rw [hka, hk]
          by_cases e : k = j'
          · rw [if_pos e]
            exact hi'
          · rw [if_neg e, if_neg (by omega)]
            exact hr' k (by omega) hk2)
        (by omega)
      exact ⟨hsw.trans r1, r2, r3, r4, r5⟩

theorem partitionEqual_spec (data : Peers) (a b pivot : Nat) (hap : a ≤ pivot)
    (hpb : pivot < b) (hb : b ≤ data.length) :
    Rearranged a b data (partitionEqual data a b pivot).1 ∧
    a + 1 ≤ (partitionEqual data a b pivot).2 ∧ (partitionEqual data a b pivot).2 ≤ b ∧
    key (partitionEqual data a b pivot).1 a = key data pivot ∧
    (∀ k, a ≤ k → k < (partitionEqual data a b pivot).2 →
      key (partitionEqual data a b pivot).1 k ≤ key data pivot) ∧
    (∀ k, (partitionEqual data a b pivot).2 ≤ k → k < b →
      key data pivot < key (partitionEqual data a b pivot).1 k) := by
  have h0 : Rearranged a b data (data.Swap a pivot) :=
    Rearranged.swap _ _ _ _ _ (le_refl _) (by omega) hap hpb hb
  have hka : key (data.Swap a pivot) a = key data pivot := by
    rw [Swap_key data a pivot a (by omega) (by omega)]
    by_cases e : a = pivot
    · rw [if_pos e, e]
    · rw [if_neg e, if_pos rfl]
  unfold partitionEqual
  simp only []
  obtain ⟨r1, r2, r3, r4, r5⟩ := partitionEqualLoop_spec a b (b - a) (a + 1) (b - 1)
    (data.Swap a pivot) (by rw [Swap_length]; exact hb) (le_refl _) (by omega) (by omega)
    (fun k h1 h2 => by omega) (fun k h1 h2 => by omega) (by omega)
  have hka' : key (partitionEqualLoop a (b - a) (a + 1) (b - 1) (data.Swap a pivot)).2 a
      = key data pivot := by
    rw [r1.key_outside a (by omega), hka]
  refine ⟨h0.trans (r1.mono (by omega) (le_refl _)), r2, r3, hka', ?_, ?_⟩
  · intro k hk1 hk2
    by_cases e : k = a
    · rw [e, hka']
    · rw [← hka']
      exact r4 k (by omega) hk2
  · intro k hk1 hk2
    rw [← hka']
    exact r5 k hk1 hk2

/-! ## Reversing, scattering and choosing the pivot -/

theorem reverseLoop_spec (a b : Nat) :
    ∀ (fuel i j : Nat) (data : Peers), a ≤ i → j < b → b ≤ data.length →
      Rearranged a b data (reverseLoop fuel i j data) := by
  intro fuel
  induction fuel with
  | zero => intro i j data _ _ _; exact Rearranged.refl _ _ _
  | succ fuel ih =>
    intro i j data hi hj hb
    rw [reverseLoop]
    split
    · next hc =>
      exact (Rearranged.swap a b data i j hi (by omega) (by omega) hj hb).trans
        (ih (i + 1) (j - 1) _ (by omega) (by omega) (by rw [Swap_length]; exact hb))
    · exact Rearranged.refl _ _ _

theorem reverseRange_spec (data : Peers) (a b : Nat) (hab : a < b) (hb : b ≤ data.length) :
    Rearranged a b data (reverseRange data a b) :=
  reverseLoop_spec a b (b - a) a (b - 1) data (le_refl _) (by omega) hb

theorem two_pow_bitsLen_le (n : Nat) (hn : n ≠ 0) : 2 ^ bitsLen n ≤ 2 * n := by
  unfold bitsLen
  rw [if_neg hn, pow_succ]
  have := Nat.log2_self_le hn
  omega

theorem nextPowerOfTwo_le (n : Nat) (hn : n ≠ 0) : nextPowerOfTwo n ≤ 2 * n := by
  unfold nextPowerOfTwo
  rw [Nat.shiftLeft_eq, one_mul]
  exact le_trans (Nat.mod_le _ _) (two_pow_bitsLen_le n hn)

theorem breakPatterns_other_lt (random length : Nat) (hl : length ≠ 0) :
    (if length ≤ random &&& (nextPowerOfTwo length - 1)
      then (random &&& (nextPowerOfTwo length - 1)) - length
      else random &&& (nextPowerOfTwo length - 1)) < length := by
  have h1 : random &&& (nextPowerOfTwo length - 1) ≤ nextPowerOfTwo length - 1 :=
    Nat.and_le_right
  have h2 := nextPowerOfTwo_le length hl
  split <;> omega

theorem breakPatterns_spec (data : Peers) (a b : Nat) (hb : b ≤ data.length) :
    Rearranged a b data (breakPatterns data a b) := by
  unfold breakPatterns
  simp only []
  split
  · next h8 =>
    have hl : b - a ≠ 0 := by omega
    have step : ∀ (is : List Nat) (s : Nat × Peers), (∀ i ∈ is, i < 3) →
        Rearranged a b data s.2 →
        Rearranged a b data (is.foldl
          (fun (s : Nat × Peers) i =>
            (xorshiftNext s.1,
              s.2.Swap (a + (b - a) / 4 * 2 - 1 - 1 + i)
                (a + (if b - a ≤ xorshiftNext s.1 &&& (nextPowerOfTwo (b - a) - 1)
                  then (xorshiftNext s.1 &&& (nextPowerOfTwo (b - a) - 1)) - (b - a)
                  else xorshiftNext s.1 &&& (nextPowerOfTwo (b - a) - 1))))) s).2 := by
      intro is
      induction is with
      | nil => intro s _ hs; exact hs
      | cons i rest ih =>
        intro s hi hs
        rw [List.foldl_cons]
        apply ih _ (fun i' hi' => hi i' (List.mem_cons_of_mem _ hi'))
        have ho := breakPatterns_other_lt (xorshiftNext s.1) (b - a) hl
        have hi3 := hi i (List.mem_cons_self _ _)
        exact hs.trans (Rearranged.swap a b s.2 _ _ (by omega) (by omega) (by omega) (by omega)
          (by rw [hs.len]; exact hb))
    exact step (List.range 3) _ (fun i hi => List.mem_range.mp hi) (Rearranged.refl _ _ _)
  · exact Rearranged.refl _ _ _

theorem median_fst (data : Peers) (x y z s : Nat) :
    (median data x y z s).1 = x ∨ (median data x y z s).1 = y ∨ (median data x y z s).1 = z := by
  unfold median order2
  by_cases h1 : data.Less y x = true
  · by_cases h2 : data.Less z x = true
    · by_cases h3 : data.Less z y = true <;> simp [h1, h2, h3]
    · by_cases h3 : data.Less x y = true <;> simp [h1, h2, h3]
  · by_cases h2 : data.Less z y = true
    · by_cases h3 : data.Less z x = true <;> simp [h1, h2, h3]
    · by_cases h3 : data.Less y x = true <;> simp [h1, h2, h3]

theorem choosePivot_bounds (data : Peers) (a b : Nat) (h : 8 ≤ b - a) :
    a ≤ (choosePivot data a b).1 ∧ (choosePivot data a b).1 < b := by
  have key : ∀ (p : Nat × Nat) (r : Nat × sortedHint),
      (a ≤ p.1 ∧ p.1 < b) →
      (r = (if p.2 = 0 then (p.1, sortedHint.increasingHint)
        else if p.2 = 4 * 3 then (p.1, sortedHint.decreasingHint)
        else (p.1, sortedHint.unknownHint))) → a ≤ r.1 ∧ r.1 < b := by
    intro p r hp hr
    subst hr
    split
    · exact hp
    · split <;> exact hp
  unfold choosePivot
  simp only [if_pos h]
  split
  · next h50 =>
    refine key (median data _ _ _ _) _ ?_ rfl
    have m1 := median_fst data (a + (b - a) / 4 * 1 - 1) (a + (b - a) / 4 * 1)
      (a + (b - a) / 4 * 1 + 1) 0
    have e1 : medianAdjacent data (a + (b - a) / 4 * 1) 0
        = median data (a + (b - a) / 4 * 1 - 1) (a + (b - a) / 4 * 1)
            (a + (b - a) / 4 * 1 + 1) 0 := rfl
    rw [← e1] at m1
    generalize (medianAdjacent data (a + (b - a) / 4 * 1) 0) = r1 at *
    have m2 := median_fst data (a + (b - a) / 4 * 2 - 1) (a + (b - a) / 4 * 2)
      (a + (b - a) / 4 * 2 + 1) r1.2
    have e2 : medianAdjacent data (a + (b - a) / 4 * 2) r1.2
        = median data (a + (b - a) / 4 * 2 - 1) (a + (b - a) / 4 * 2)
            (a + (b - a) / 4 * 2 + 1) r1.2 := rfl
    rw [← e2] at m2
    generalize (medianAdjacent data (a + (b - a) / 4 * 2) r1.2) = r2 at *
    have m3 := median_fst data (a + (b - a) / 4 * 3 - 1) (a + (b - a) / 4 * 3)
      (a + (b - a) / 4 * 3 + 1) r2.2
    have e3 : medianAdjacent data (a + (b - a) / 4 * 3) r2.2
        = median data (a + (b - a) / 4 * 3 - 1) (a + (b - a) / 4 * 3)
            (a + (b - a) / 4 * 3 + 1) r2.2 := rfl
    rw [← e3] at m3
    generalize (medianAdjacent data (a + (b - a) / 4 * 3) r2.2) = r3 at *
    have m4 := median_fst data r1.1 r2.1 r3.1 r3.2
    omega
  · refine key (median data _ _ _ _) _ ?_ rfl
    have := median_fst data (a + (b - a) / 4 * 1) (a + (b - a) / 4 * 2) (a + (b - a) / 4 * 3) 0
    omega

/-! ## Partial insertion sort -/

theorem skipOrdered_spec (data : Peers) (b : Nat) :
    ∀ (fuel i : Nat), b - i ≤ fuel →
      i ≤ skipOrdered data b fuel i ∧
      (i ≤ b → skipOrdered data b fuel i ≤ b) ∧
      (∀ k, i ≤ k → k < skipOrdered data b fuel i → key data (k - 1) ≤ key data k) := by
  intro fuel
  induction fuel with
  | zero =>
    intro i h
    simp only [skipOrdered]
    exact ⟨le_refl _, fun h' => h', fun k h1 h2 => by omega⟩
  | succ fuel ih =>
    intro i h
    rw [skipOrdered]
    split
    · next hc =>
      obtain ⟨h1, h2, h3⟩ := ih (i + 1) (by omega)
      refine ⟨by omega, fun _ => h2 (by omega), ?_⟩
      intro k hk1 hk2
      by_cases e : k = i
      · subst e
        exact (Less_false_iff _ _ _).mp hc.2
      · exact h3 k (by omega) hk2
    · exact ⟨le_refl _, fun h' => h', fun k h1 h2 => by omega⟩

theorem shiftSmaller_eq (a : Nat) :
    ∀ (j : Nat) (data : Peers), a ≤ j → j < data.length →
      (0 < a → ∀ k, a ≤ k → k ≤ j → key data (a - 1) ≤ key data k) →
      shiftSmaller j data = insertionSortInner a j data := by
  intro j
  induction j with
  | zero => intro data _ _ _; rfl
  | succ j ih =>
    intro data haj hj hfloor
    rw [shiftSmaller, insertionSortInner]
    by_cases ha : a < j + 1
    · by_cases hl : data.Less (j + 1) j = true
      · rw [if_neg (by simp [hl]), if_pos ⟨ha, hl⟩]
        apply ih _ (by omega) (by rw [Swap_length]; omega)
        intro ha0 k hk1 hk2
        have hk := fun k => Swap_key data (j + 1) j k hj (by omega)
        rw [hk, hk, if_neg (by omega), if_neg (by omega)]
        by_cases e : k = j
        · rw [if_pos e]
          exact hfloor ha0 (j + 1) (by omega) (le_refl _)
        · rw [if_neg e, if_neg (by omega)]
          exact hfloor ha0 k hk1 (by omega)
      · rw [if_pos (by simpa using hl), if_neg (fun h => hl h.2)]
    · have e : a = j + 1 := by omega
      have hle := hfloor (by omega) (j + 1) (by omega) (le_refl _)
      have hl : data.Less (j + 1) j = false := by
        rw [Less_false_iff]
        rw [e] at hle
        simpa using hle
      rw [if_pos hl, if_neg (fun h => ha h.1)]

theorem shiftGreater_spec (lo b : Nat) :
    ∀ (fuel j : Nat) (data : Peers), lo + 1 ≤ j → b ≤ data.length →
      Rearranged lo b data (shiftGreater b fuel j data) := by
  intro fuel
  induction fuel with
  | zero => intro j data _ _; exact Rearranged.refl _ _ _
  | succ fuel ih =>
    intro j data hj hb
    rw [shiftGreater]
    split
    · next hjb =>
      split
      · exact Rearranged.refl _ _ _
      · exact (Rearranged.swap lo b data j (j - 1) (by omega) hjb (by omega) (by omega) hb).trans
          (ih (j + 1) _ (by omega) (by rw [Swap_length]; exact hb))
    · exact Rearranged.refl _ _ _

theorem partialInsertionSortLoop_spec (a b : Nat) :
    ∀ (steps i : Nat) (data : Peers), a + 1 ≤ i → i ≤ b → b ≤ data.length →
      SortedOn a i data →
      (0 < a → ∀ k, a ≤ k → k < b → key data (a - 1) ≤ key data k) →
      Rearranged a b data (partialInsertionSortLoop a b steps i data).2 ∧
      ((partialInsertionSortLoop a b steps i data).1 = true →
        SortedOn a b (partialInsertionSortLoop a b steps i data).2) := by
  intro steps
  induction steps with
  | zero =>
    intro i data _ _ _ _ _
    simp only [partialInsertionSortLoop]
    exact ⟨Rearranged.refl _ _ _, fun h => by simp at h⟩
  | succ steps ih =>
    intro i data hai hib hb hs hfloor
    rw [partialInsertionSortLoop]
    obtain ⟨k1, k2, k3⟩ := skipOrdered_spec data b (b - i) i (le_refl _)
    generalize skipOrdered data b (b - i) i = i' at *
    have hs' : SortedOn a i' data := by
      apply SortedOn.of_adjacent
      intro k hk1 hk2
      by_cases e : k + 1 < i
      · exact hs k (k + 1) hk1 (by omega) e
      · have := k3 (k + 1) (by omega) hk2
        simpa using this
    simp only []
    split
    · next he =>
      subst he
      exact ⟨Rearranged.refl _ _ _, fun _ => hs'⟩
    · next hne =>
      split
      · exact ⟨Rearranged.refl _ _ _, fun h => by simp at h⟩
      · next h50 =>
        have hi'b : i' < b := by have := k2 hib; omega
        -- the exchange of the out-of-order pair
        have r1 : Rearranged a b data (data.Swap i' (i' - 1)) :=
          Rearranged.swap a b data _ _ (by omega) hi'b (by omega) (by omega) hb
        have hk := fun k => Swap_key data i' (i' - 1) k (by omega) (by omega)
        have s1 : SortedOn a (i' - 1) (data.Swap i' (i' - 1)) := by
          intro x y hx hxy hy
          rw [hk, hk, if_neg (by omega), if_neg (by omega), if_neg (by omega), if_neg (by omega)]
          exact hs' x y hx hxy (by omega)
        -- the smaller one is shifted to the left
        have r2 : Rearranged a i' (data.Swap i' (i' - 1))
              (if 2 ≤ i' - a then shiftSmaller (i' - 1) (data.Swap i' (i' - 1))
                else data.Swap i' (i' - 1)) ∧
            SortedOn a i' (if 2 ≤ i' - a then shiftSmaller (i' - 1) (data.Swap i' (i' - 1))
                else data.Swap i' (i' - 1)) := by
          split
          · next h2 =>
            rw [shiftSmaller_eq a (i' - 1) _ (by omega) (by rw [Swap_length]; omega)
              (fun ha0 k hk1 hk2 => by
                have e : key (data.Swap i' (i' - 1)) (a - 1) = key data (a - 1) :=
                  r1.key_outside _ (by omega)
                rw [e]
                exact r1.forall_key (fun v => key data (a - 1) ≤ v)
                  (fun k h1 h2 => hfloor ha0 k h1 h2) k hk1 (by omega))]
            have := insertionSortInner_spec a (i' - 1) (data.Swap i' (i' - 1)) (i' - 1)
              (by omega) (le_refl _) (by rw [Swap_length]; omega) s1
              (fun x y hx hxy hy => by
                have : x = y := by omega
                subst this
                exact le_refl _)
              (fun x y _ _ h1 h2 => by omega)
            have e : i' - 1 + 1 = i' := by omega
            rw [e] at this
            exact this
          · next h2 =>
            refine ⟨Rearranged.refl _ _ _, ?_⟩
            intro x y hx hxy hy
            have : x = y := by omega
            subst this
            exact le_refl _
        generalize (if 2 ≤ i' - a then shiftSmaller (i' - 1) (data.Swap i' (i' - 1))
                else data.Swap i' (i' - 1)) = d2 at *
        have hd2 : b ≤ d2.length := by rw [r2.1.len, Swap_length]; exact hb
        -- the greater one is shifted to the right
        have r3 : Rearranged i' b d2
            (if 2 ≤ b - i' then shiftGreater b (b - (i' + 1)) (i' + 1) d2 else d2) := by
          split
          · exact shiftGreater_spec i' b _ _ _ (le_refl _) hd2
          · exact Rearranged.refl _ _ _
        generalize (if 2 ≤ b - i' then shiftGreater b (b - (i' + 1)) (i' + 1) d2 else d2)
          = d3 at *
        have rall : Rearranged a b data d3 :=
          (r1.trans (r2.1.mono (le_refl _) (by omega))).trans (r3.mono (by omega) (le_refl _))
        have s3 : SortedOn a i' d3 :=
          r2.2.of_outside (fun k hk1 hk2 => r3.outside k (Or.inl hk2))
        obtain ⟨q1, q2⟩ := ih i' d3 (by omega) (by omega) (by rw [rall.len]; exact hb) s3
          (fun ha0 k hk1 hk2 => by
            have e : key d3 (a - 1) = key data (a - 1) := rall.key_outside _ (by omega)
            rw [e]
            exact rall.forall_key (fun v => key data (a - 1) ≤ v)
              (fun k h1 h2 => hfloor ha0 k h1 h2) k hk1 hk2)
        exact ⟨rall.trans q1, q2⟩

theorem partialInsertionSort_spec (data : Peers) (a b : Nat) (hab : a < b)
    (hb : b ≤ data.length)
    (hfloor : 0 < a → ∀ k, a ≤ k → k < b → key data (a - 1) ≤ key data k) :
    Rearranged a b data (partialInsertionSort data a b).2 ∧
    ((partialInsertionSort data a b).1 = true →
      SortedOn a b (partialInsertionSort data a b).2) := by
  unfold partialInsertionSort
  exact partialInsertionSortLoop_spec a b 5 (a + 1) data (le_refl _) (by omega) hb
    (fun x y hx hxy hy => by
      have : x = y := by omega
      subst this
      exact le_refl _)
    hfloor

/-! ## Heap sort -/

theorem siftDown_spec (hi first : Nat) (lo : Nat) :
    ∀ (fuel root : Nat) (data : Peers), lo ≤ root → hi - root ≤ fuel →
      first + hi ≤ data.length →
      (∀ p c, lo ≤ p → p ≠ root → (c = 2 * p + 1 ∨ c = 2 * p + 2) → c < hi →
        key data (first + c) ≤ key data (first + p)) →
      (∀ p c, lo ≤ p → (root = 2 * p + 1 ∨ root = 2 * p + 2) →
        (c = 2 * root + 1 ∨ c = 2 * root + 2) → c < hi →
        key data (first + c) ≤ key data (first + p)) →
      Rearranged first (first + hi) data (siftDown hi first fuel root data) ∧
      HeapFrom first lo hi (siftDown hi first fuel root data) := by
  intro fuel
  induction fuel with
  | zero =>
    intro root data hlo hf hlen hA hB
    simp only [siftDown]
    refine ⟨Rearranged.refl _ _ _, ?_⟩
    intro p c hp hc hchi
    exact hA p c hp (by omega) hc hchi
  | succ fuel ih =>
    intro root data hlo hf hlen hA hB
    rw [siftDown]
    simp only []
    split
    · next hnc =>
      refine ⟨Rearranged.refl _ _ _, ?_⟩
      intro p c hp hc hchi
      exact hA p c hp (by omega) hc hchi
    · next hch =>
      -- the greater child
      have hmax : ∀ c', c' = (if 2 * root + 1 + 1 < hi ∧
            data.Less (first + (2 * root + 1)) (first + (2 * root + 1) + 1) = true
            then 2 * root + 1 + 1 else 2 * root + 1) →
          (c' = 2 * root + 1 ∨ c' = 2 * root + 2) ∧ c' < hi ∧
          (∀ c, (c = 2 * root + 1 ∨ c = 2 * root + 2) → c < hi →
            key data (first + c) ≤ key data (first + c')) := by
        intro c' hc'
        split at hc'
        · next hr =>
          subst hc'
          have hlt := (Less_iff _ _ _).mp hr.2
          refine ⟨Or.inr rfl, hr.1, ?_⟩
          intro c hc _
          rcases hc with rfl | rfl
          · exact le_of_lt hlt
          · exact le_refl _
        · next hr =>
          subst hc'
          refine ⟨Or.inl rfl, by omega, ?_⟩
          intro c hc hchi
          rcases hc with rfl | rfl
          · exact le_refl _
          · have : data.Less (first + (2 * root + 1)) (first + (2 * root + 1) + 1) = false := by
              by_contra hcon
              exact hr ⟨by omega, by simpa using hcon⟩
            exact (Less_false_iff _ _ _).mp this
      obtain ⟨m1, m2, m3⟩ := hmax _ rfl
      generalize (if 2 * root + 1 + 1 < hi ∧
            data.Less (first + (2 * root + 1)) (first + (2 * root + 1) + 1) = true
            then 2 * root + 1 + 1 else 2 * root + 1) = c' at *
      split
      · next hnl =>
        have hle := (Less_false_iff _ _ _).mp hnl
        refine ⟨Rearranged.refl _ _ _, ?_⟩
        intro p c hp hc hchi
        by_cases e : p = root
        · subst e
          exact le_trans (m3 c hc hchi) hle
        · exact hA p c hp e hc hchi
      · next hl =>
        have hlt : key data (first + root) < key data (first + c') := by
          rw [← Less_iff]
          simpa using hl
        have hk := fun k => Swap_key data (first + root) (first + c') k (by omega) (by omega)
        have hsw : Rearranged first (first + hi) data (data.Swap (first + root) (first + c')) :=
          Rearranged.swap _ _ _ _ _ (by omega) (by omega) (by omega) (by omega) hlen
        have kr : key (data.Swap (first + root) (first + c')) (first + root)
            = key data (first + c') := by
          rw [hk, if_neg (by omega), if_pos rfl]
        have kc : key (data.Swap (first + root) (first + c')) (first + c')
            = key data (first + root) := by
          rw [hk, if_pos rfl]
        have ko : ∀ x, x ≠ root → x ≠ c' →
            key (data.Swap (first + root) (first + c')) (first + x) = key data (first + x) := by
          intro x h1 h2
          rw [hk, if_neg (by omega), if_neg (by omega)]
        obtain ⟨r1, r2⟩ := ih c' (data.Swap (first + root) (first + c')) (by omega) (by omega)
          (by rw [Swap_length]; exact hlen)
          (by
            intro p c hp hpc hc hchi
            by_cases e : p = root
            · subst e
              rw [kr]
              by_cases ec : c = c'
              · rw [ec, kc]
                exact le_of_lt hlt
              · rw [ko c (by omega) ec]
                exact m3 c hc hchi
            · rw [ko p e hpc]
              by_cases ec : c = root
              · rw [ec, kr]
                exact hB p c' hp (by omega) m1 m2
              · rw [ko c ec (by omega)]
                exact hA p c hp e hc hchi)
          (by
            intro p c hp hpc hc hchi
            have e : p = root := by omega
            subst e
            rw [kr, ko c (by omega) (by omega)]
            exact hA c' c (by omega) (by omega) hc hchi)
        exact ⟨hsw.trans r1, r2⟩

theorem HeapFrom.root_max {first hi : Nat} {l : Peers} (h : HeapFrom first 0 hi l) :
    ∀ k, k < hi → key l (first + k) ≤ key l (first + 0) := by
  intro k
  induction k using Nat.strong_induction_on with
  | _ k ih =>
    intro hk
    by_cases e : k = 0
    · subst e
      exact le_refl _
    · have hp := ih ((k - 1) / 2) (by omega) (by omega)
      exact le_trans (h ((k - 1) / 2) k (Nat.zero_le _) (by omega) hk) hp

theorem heapSort_build_spec (hi first : Nat) :
    ∀ (m : Nat) (data : Peers), first + hi ≤ data.length → HeapFrom first m hi data →
      Rearranged first (first + hi) data
          ((List.range m).reverse.foldl (fun d i => siftDown hi first hi i d) data) ∧
        HeapFrom first 0 hi
          ((List.range m).reverse.foldl (fun d i => siftDown hi first hi i d) data) := by
  intro m
  induction m with
  | zero =>
    intro data _ h
    exact ⟨Rearranged.refl _ _ _, h⟩
  | succ m ih =>
    intro data hlen h
    rw [List.range_succ, List.reverse_append, List.reverse_singleton, List.singleton_append,
      List.foldl_cons]
    obtain ⟨r1, r2⟩ := siftDown_spec hi first m hi m data (le_refl _) (by omega) hlen
      (fun p c hp hne hc hchi => h p c (by omega) hc hchi)
      (fun p c hp hpc hc hchi => by omega)
    obtain ⟨q1, q2⟩ := ih _ (by rw [r1.len]; exact hlen) r2
    exact ⟨r1.trans q1, q2⟩

theorem heapSort_pop_spec (hi first : Nat) :
    ∀ (m : Nat) (data : Peers), m ≤ hi → first + hi ≤ data.length →
      HeapFrom first 0 m data → SortedOn (first + m) (first + hi) data →
      (∀ x y, x < m → m ≤ y → y < hi → key data (first + x) ≤ key data (first + y)) →
      Rearranged first (first + hi) data
          ((List.range m).reverse.foldl
            (fun d i => siftDown i first i 0 (d.Swap first (first + i))) data) ∧
        SortedOn first (first + hi)
          ((List.range m).reverse.foldl
            (fun d i => siftDown i first i 0 (d.Swap first (first + i))) data) := by
  intro m
  induction m with
  | zero =>
    intro data _ _ _ hs _
    exact ⟨Rearranged.refl _ _ _, hs⟩
  | succ m ih =>
    intro data hm hlen hheap hs hcross
    rw [List.range_succ, List.reverse_append, List.reverse_singleton, List.singleton_append,
      List.foldl_cons]
    have hmax := hheap.root_max
    have hk := fun k => Swap_key data first (first + m) k (by omega) (by omega)
    have hsw : Rearranged first (first + hi) data (data.Swap first (first + m)) :=
      Rearranged.swap _ _ _ _ _ (le_refl _) (by omega) (by omega) (by omega) hlen
    have hlen1 : first + hi ≤ (data.Swap first (first + m)).length := by
      rw [Swap_length]; exact hlen
    -- every entry of the swapped heap below `m` is an old entry of the heap
    have hold : ∀ x, x < m → key (data.Swap first (first + m)) (first + x)
        ≤ key data (first + 0) := by
      intro x hx
      rw [hk, if_neg (by omega)]
      by_cases e : x = 0
      · rw [if_pos (by omega)]
        exact hmax m (by omega)
      · rw [if_neg (by omega)]
        exact hmax x (by omega)
    obtain ⟨r1, r2⟩ := siftDown_spec m first 0 m 0 (data.Swap first (first + m)) (le_refl _)
      (by omega) (by omega)
      (fun p c hp hne hc hchi => by
        rw [hk, hk, if_neg (by omega), if_neg (by omega), if_neg (by omega), if_neg (by omega)]
        exact hheap p c (by omega) hc (by omega))
      (fun p c hp hpc hc hchi => by omega)
    generalize siftDown m first m 0 (data.Swap first (first + m)) = d2 at *
    have r1' : Rearranged first (first + hi) (data.Swap first (first + m)) d2 :=
      r1.mono (le_refl _) (by omega)
    have kout : ∀ y, m ≤ y → key d2 (first + y)
        = key (data.Swap first (first + m)) (first + y) :=
      fun y hy => r1.key_outside _ (by omega)
    have km : key d2 (first + m) = key data (first + 0) := by
      rw [kout m (le_refl _), hk, if_pos rfl]
      rfl
    have kgt : ∀ y, m < y → key d2 (first + y) = key data (first + y) := by
      intro y hy
      rw [kout y (by omega), hk, if_neg (by omega), if_neg (by omega)]
    obtain ⟨q1, q2⟩ := ih d2 (by omega) (by rw [r1.len]; exact hlen1) r2
      (by
        intro x y hx hxy hy
        obtain ⟨x', rfl⟩ : ∃ x', x = first + x' := ⟨x - first, by omega⟩
        obtain ⟨y', rfl⟩ : ∃ y', y = first + y' := ⟨y - first, by omega⟩
        by_cases ex : x' = m
        · by_cases ey : y' = m
          · rw [ex, ey]
          · rw [ex, km, kgt y' (by omega)]
            exact hcross 0 y' (by omega) (by omega) (by omega)
        · rw [kgt x' (by omega), kgt y' (by omega)]
          exact hs _ _ (by omega) hxy hy)
      (by
        intro x y hx hy hyhi
        have hx' : key d2 (first + x) ≤ key data (first + 0) ∧
            ∀ y, m + 1 ≤ y → y < hi → key d2 (first + x) ≤ key data (first + y) := by
          obtain ⟨k', h1, h2, e⟩ := r1.key_inside (first + x) (by omega) (by omega)
          obtain ⟨x', rfl⟩ : ∃ x', k' = first + x' := ⟨k' - first, by omega⟩
          rw [e]
          refine ⟨hold x' (by omega), ?_⟩
          intro y hy1 hy2
          rw [hk, if_neg (by omega)]
          by_cases e0 : x' = 0
          · rw [if_pos (by omega)]
            exact hcross m y (by omega) hy1 hy2
          · rw [if_neg (by omega)]
            exact hcross x' y (by omega) hy1 hy2
        by_cases ey : y = m
        · rw [ey, km]
          exact hx'.1
        · rw [kgt y (by omega)]
          exact hx'.2 y (by omega) hyhi)
    exact ⟨(hsw.trans r1').trans q1, q2⟩

theorem heapSort_spec (data : Peers) (a b : Nat) (hab : a ≤ b) (hb : b ≤ data.length) :
    Rearranged a b data (heapSort data a b) ∧ SortedOn a b (heapSort data a b) := by
  unfold heapSort
  simp only []
  have e : a + (b - a) = b := by omega
  obtain ⟨r1, r2⟩ := heapSort_build_spec (b - a) a ((b - a - 1) / 2 + 1) data (by omega)
    (fun p c hp hc hchi => by omega)
  obtain ⟨q1, q2⟩ := heapSort_pop_spec (b - a) a (b - a) _ (le_refl _)
    (by rw [r1.len]; omega) r2
    (fun x y hx hxy hy => by omega)
    (fun x y hx hy hyhi => by omega)
  rw [e] at r1 q1 q2
  exact ⟨r1.trans q1, q2⟩

/-! ## Pattern-defeating quicksort -/

theorem pdqsortLoop_succ (fuel : Nat) (data : Peers) (a b limit : Nat)
    (wasBalanced wasPartitioned : Bool) :
    pdqsortLoop (fuel + 1) data a b limit wasBalanced wasPartitioned =
      if b - a ≤ 12 then insertionSort data a b
      else if limit = 0 then heapSort data a b
      else
        let d1 := if wasBalanced then data else breakPatterns data a b
        let limit' := if wasBalanced then limit else limit - 1
        let cp := choosePivot d1 a b
        let d2 := if cp.2 = sortedHint.decreasingHint then reverseRange d1 a b else d1
        let pivot := if cp.2 = sortedHint.decreasingHint then (b - 1) - (cp.1 - a) else cp.1
        let hint := if cp.2 = sortedHint.decreasingHint then sortedHint.increasingHint else cp.2
        let tried :=
          if wasBalanced ∧ wasPartitioned ∧ hint = sortedHint.increasingHint
          then partialInsertionSort d2 a b else (false, d2)
        if tried.1 then tried.2
        else if 0 < a ∧ tried.2.Less (a - 1) pivot = false then
          pdqsortLoop fuel (partitionEqual tried.2 a b pivot).1
            (partitionEqual tried.2 a b pivot).2 b limit' wasBalanced wasPartitioned
        else
          let pt := partition tried.2 a b pivot
          if pt.2.1 - a < b - pt.2.1 then
            pdqsortLoop fuel (pdqsortLoop fuel pt.1 a pt.2.1 limit' true true) (pt.2.1 + 1) b
              limit' (decide ((b - a) / 8 ≤ pt.2.1 - a)) pt.2.2
          else
            pdqsortLoop fuel (pdqsortLoop fuel pt.1 (pt.2.1 + 1) b limit' true true) a pt.2.1
              limit' (decide ((b - a) / 8 ≤ b - pt.2.1)) pt.2.2 := by
  rw [pdqsortLoop]

theorem floor_of_rearranged {a b : Nat} {l l' : Peers} (h : Rearranged a b l l')
    (hf : 0 < a → ∀ k, a ≤ k → k < b → key l (a - 1) ≤ key l k) :
    0 < a → ∀ k, a ≤ k → k < b → key l' (a - 1) ≤ key l' k := by
  intro ha k hk1 hk2
  rw [h.key_outside (a - 1) (by omega)]
  exact h.forall_key (fun v => key l (a - 1) ≤ v) (fun k h1 h2 => hf ha k h1 h2) k hk1 hk2

theorem sortedOn_glue (a mid b : Nat) (l : Peers) (hs1 : SortedOn a mid l)
    (hs2 : SortedOn (mid + 1) b l)
    (hl : ∀ k, a ≤ k → k < mid → key l k ≤ key l mid)
    (hr : ∀ k, mid < k → k < b → key l mid ≤ key l k) : SortedOn a b l := by
  intro x y hx hxy hy
  by_cases h1 : y < mid
  · exact hs1 x y hx hxy h1
  · by_cases h2 : mid < x
    · exact hs2 x y (by omega) hxy hy
    · by_cases h3 : x = mid
      · by_cases h4 : y = mid
        · rw [h3, h4]
        · rw [h3]
          exact hr y (by omega) hy
      · by_cases h4 : y = mid
        · rw [h4]
          exact hl x hx (by omega)
        · exact le_trans (hl x hx (by omega)) (hr y (by omega) hy)

theorem pdqsortLoop_spec :
    ∀ (fuel : Nat) (data : Peers) (a b limit : Nat) (wb wp : Bool),
      a ≤ b → b ≤ data.length → b - a < fuel →
      (0 < a → ∀ k, a ≤ k → k < b → key data (a - 1) ≤ key data k) →
      Rearranged a b data (pdqsortLoop fuel data a b limit wb wp) ∧
        SortedOn a b (pdqsortLoop fuel data a b limit wb wp) := by
  intro fuel
  induction fuel with
  | zero => intro data a b limit wb wp _ _ h; omega
  | succ fuel ih =>
    intro data a b limit wb wp hab hb hf hfloor
    rw [pdqsortLoop_succ]
    split
    · exact insertionSort_spec data a b hb
    · next h12 =>
      split
      · exact heapSort_spec data a b hab hb
      · next hlim =>
        simp only []
        have R1 : Rearranged a b data (if wb = true then data else breakPatterns data a b) := by
          split
          · exact Rearranged.refl _ _ _
          · exact breakPatterns_spec data a b hb
        generalize (if wb = true then data else breakPatterns data a b) = d1 at *
        generalize (if wb = true then limit else limit - 1) = limit' at *
        have hcp := choosePivot_bounds d1 a b (by omega)
        generalize choosePivot d1 a b = cp at *
        have hb1 : b ≤ d1.length := by rw [R1.len]; exact hb
        have R2 : Rearranged a b d1
            (if cp.2 = sortedHint.decreasingHint then reverseRange d1 a b else d1) := by
          split
          · exact reverseRange_spec d1 a b (by omega) hb1
          · exact Rearranged.refl _ _ _
        generalize (if cp.2 = sortedHint.decreasingHint then reverseRange d1 a b else d1)
          = d2 at *
        have hp : a ≤ (if cp.2 = sortedHint.decreasingHint then b - 1 - (cp.1 - a) else cp.1) ∧
            (if cp.2 = sortedHint.decreasingHint then b - 1 - (cp.1 - a) else cp.1) < b := by
          split <;> omega
        generalize (if cp.2 = sortedHint.decreasingHint then b - 1 - (cp.1 - a) else cp.1)
          = pivot at *
        generalize (if cp.2 = sortedHint.decreasingHint then sortedHint.increasingHint
          else cp.2) = hint at *
        have R02 : Rearranged a b data d2 := R1.trans R2
        have hb2 : b ≤ d2.length := by rw [R02.len]; exact hb
        have floor2 := floor_of_rearranged R02 hfloor
        have R3 : Rearranged a b d2
              (if wb = true ∧ wp = true ∧ hint = sortedHint.increasingHint
                then partialInsertionSort d2 a b else (false, d2)).2 ∧
            ((if wb = true ∧ wp = true ∧ hint = sortedHint.increasingHint
                then partialInsertionSort d2 a b else (false, d2)).1 = true →
              SortedOn a b (if wb = true ∧ wp = true ∧ hint = sortedHint.increasingHint
                then partialInsertionSort d2 a b else (false, d2)).2) := by
          split
          · exact partialInsertionSort_spec d2 a b (by omega) hb2 floor2
          · exact ⟨Rearranged.refl _ _ _, fun h => by simp at h⟩
        generalize (if wb = true ∧ wp = true ∧ hint = sortedHint.increasingHint
                then partialInsertionSort d2 a b else (false, d2)) = tried at *
        have R03 : Rearranged a b data tried.2 := R02.trans R3.1
        have hb3 : b ≤ tried.2.length := by rw [R03.len]; exact hb
        have floor3 := floor_of_rearranged R03 hfloor
        split
        · next ht => exact ⟨R03, R3.2 ht⟩
        · next ht =>
          generalize tried.2 = d3 at *
          split
          · next hc =>
            -- the pivot equals its predecessor: split off the entries equal to it
            obtain ⟨e1, e2, e3, e4, e5, e6⟩ := partitionEqual_spec d3 a b pivot hp.1 hp.2 hb3
            generalize partitionEqual d3 a b pivot = pe at *
            have hpk : key d3 pivot ≤ key d3 (a - 1) := (Less_false_iff _ _ _).mp hc.2
            have floor4 := floor_of_rearranged e1 floor3
            have ka : key pe.1 (a - 1) = key d3 (a - 1) := e1.key_outside _ (by omega)
            obtain ⟨q1, q2⟩ := ih pe.1 pe.2 b limit' wb wp e3 (by rw [e1.len]; exact hb3)
              (by omega)
              (fun _ k hk1 hk2 =>
                le_trans (e5 (pe.2 - 1) (by omega) (by omega)) (le_of_lt (e6 k hk1 hk2)))
            generalize pdqsortLoop fuel pe.1 pe.2 b limit' wb wp = r at *
            refine ⟨R03.trans (e1.trans (q1.mono (by omega) (le_refl _))), ?_⟩
            have klow : ∀ x, a ≤ x → x < pe.2 → key r x ≤ key d3 pivot := by
              intro x hx1 hx2
              rw [q1.key_outside x (Or.inl hx2)]
              exact e5 x hx1 hx2
            have khigh : ∀ y, a ≤ y → y < b → key d3 pivot ≤ key r y := by
              intro y hy1 hy2
              by_cases hy : y < pe.2
              · rw [q1.key_outside y (Or.inl hy)]
                exact le_trans hpk (ka ▸ floor4 hc.1 y hy1 hy2)
              · exact q1.forall_key (fun v => key d3 pivot ≤ v)
                  (fun k h1 h2 => le_of_lt (e6 k h1 h2)) y (by omega) hy2
            intro x y hx hxy hy
            by_cases h1 : x < pe.2
            · exact le_trans (klow x hx h1) (khigh y (by omega) hy)
            · exact q2 x y (by omega) hxy hy
          · next hc =>
            obtain ⟨p1, p2, p3, p4, p5⟩ := partition_spec d3 a b pivot hp.1 hp.2 hb3
            generalize partition d3 a b pivot = pt at *
            have R04 : Rearranged a b data pt.1 := R03.trans p1
            have hb4 : b ≤ pt.1.length := by rw [R04.len]; exact hb
            have floor4 := floor_of_rearranged p1 floor3
            split
            · next hlr =>
              -- the left part first, then the loop goes on with the right part
              obtain ⟨l1, l2⟩ := ih pt.1 a pt.2.1 limit' true true p2 (by omega) (by omega)
                (fun ha k h1 h2 => floor4 ha k h1 (by omega))
              generalize pdqsortLoop fuel pt.1 a pt.2.1 limit' true true = d5 at *
              have km : key d5 pt.2.1 = key pt.1 pt.2.1 := l1.key_outside _ (Or.inr (le_refl _))
              have kr : ∀ k, pt.2.1 < k → key d5 k = key pt.1 k :=
                fun k hk => l1.key_outside _ (Or.inr (by omega))
              obtain ⟨r1, r2⟩ := ih d5 (pt.2.1 + 1) b limit'
                (decide ((b - a) / 8 ≤ pt.2.1 - a)) pt.2.2 (by omega)
                (by rw [l1.len]; exact hb4) (by omega)
                (fun _ k h1 h2 => by
                  have e : pt.2.1 + 1 - 1 = pt.2.1 := by omega
                  rw [e, km, kr k (by omega)]
                  exact p5 k (by omega) h2)
              generalize pdqsortLoop fuel d5 (pt.2.1 + 1) b limit'
                (decide ((b - a) / 8 ≤ pt.2.1 - a)) pt.2.2 = r at *
              refine ⟨R04.trans ((l1.mono (le_refl _) (by omega)).trans
                (r1.mono (by omega) (le_refl _))), ?_⟩
              have kmr : key r pt.2.1 = key pt.1 pt.2.1 := by
                rw [r1.key_outside _ (Or.inl (by omega)), km]
              apply sortedOn_glue a pt.2.1 b r
              · exact l2.of_outside (fun k _ hk2 => r1.outside k (Or.inl (by omega)))
              · exact r2
              · intro k hk1 hk2
                rw [kmr, r1.key_outside k (Or.inl (by omega))]
                exact le_of_lt (l1.forall_key (fun v => v < key pt.1 pt.2.1) p4 k hk1 hk2)
              · intro k hk1 hk2
                rw [kmr]
                exact r1.forall_key (fun v => key pt.1 pt.2.1 ≤ v)
                  (fun k h1 h2 => by
                    show key pt.1 pt.2.1 ≤ key d5 k
                    rw [kr k (by omega)]
                    exact p5 k (by omega) h2) k (by omega) hk2
            · next hlr =>
              -- the right part first, then the loop goes on with the left part
              obtain ⟨l1, l2⟩ := ih pt.1 (pt.2.1 + 1) b limit' true true (by omega) hb4
                (by omega)
                (fun _ k h1 h2 => by
                  have e : pt.2.1 + 1 - 1 = pt.2.1 := by omega
                  rw [e]
                  exact p5 k (by omega) h2)
              generalize pdqsortLoop fuel pt.1 (pt.2.1 + 1) b limit' true true = d5 at *
              have kl : ∀ k, k ≤ pt.2.1 → key d5 k = key pt.1 k :=
                fun k hk => l1.key_outside _ (Or.inl (by omega))
              obtain ⟨r1, r2⟩ := ih d5 a pt.2.1 limit'
                (decide ((b - a) / 8 ≤ b - pt.2.1)) pt.2.2 p2
                (by rw [l1.len]; omega) (by omega)
                (fun ha k h1 h2 => by
                  rw [kl (a - 1) (by omega), kl k (by omega)]
                  exact floor4 ha k h1 (by omega))
              generalize pdqsortLoop fuel d5 a pt.2.1 limit'
                (decide ((b - a) / 8 ≤ b - pt.2.1)) pt.2.2 = r at *
              refine ⟨R04.trans ((l1.mono (by omega) (le_refl _)).trans
                (r1.mono (le_refl _) (by omega))), ?_⟩
              have kmr : key r pt.2.1 = key pt.1 pt.2.1 := by
                rw [r1.key_outside _ (Or.inr (le_refl _)), kl _ (le_refl _)]
              apply sortedOn_glue a pt.2.1 b r
              · exact r2
              · exact l2.of_outside (fun k hk1 _ => r1.outside k (Or.inr (by omega)))
              · intro k hk1 hk2
                rw [kmr]
                exact le_of_lt (r1.forall_key (fun v => v < key pt.1 pt.2.1)
                  (fun k h1 h2 => by
                    show key d5 k < key pt.1 pt.2.1
                    rw [kl k (by omega)]
                    exact p4 k h1 h2) k hk1 hk2)
              · intro k hk1 hk2
                rw [kmr, r1.key_outside k (Or.inr (by omega))]
                exact l1.forall_key (fun v => key pt.1 pt.2.1 ≤ v)
                  (fun k h1 h2 => p5 k (by omega) h2) k (by omega) hk2

theorem pdqsort_spec (data : Peers) (a b limit : Nat) (hab : a ≤ b) (hb : b ≤ data.length)
    (hfloor : 0 < a → ∀ k, a ≤ k → k < b → key data (a - 1) ≤ key data k) :
    Rearranged a b data (pdqsort data a b limit) ∧ SortedOn a b (pdqsort data a b limit) :=
  pdqsortLoop_spec (b - a + 1) data a b limit true true hab hb (by omega) hfloor

theorem sort_Sort_spec (data : Peers) :
    Rearranged 0 data.length data (sort_Sort data) ∧ SortedOn 0 data.length (sort_Sort data) := by
  unfold sort_Sort Peers.Len
  simp only []
  split
  · next h =>
    refine ⟨Rearranged.refl _ _ _, ?_⟩
    intro x y hx hxy hy
    have : x = y := by omega
    subst this
    exact le_refl _
  · exact pdqsort_spec data 0 data.length _ (Nat.zero_le _) (le_refl _) (fun h => by omega)

/-! ## Short buckets: insertion sort keeps equal latencies in order -/

theorem Swap_adjacent_filter (s : Int) :
    ∀ (j : Nat) (l : Peers), j + 1 < l.length → key l (j + 1) ≠ key l j →
      (l.Swap (j + 1) j).filter (fun p => decide (p.Speed = s))
        = l.filter (fun p => decide (p.Speed = s)) := by
  intro j
  induction j with
  | zero =>
    intro l hl hne
    match l, hl with
    | x :: y :: rest, _ =>
      have hxy : y.Speed ≠ x.Speed := by simpa [key] using hne
      have e : Peers.Swap (x :: y :: rest) (0 + 1) 0 = y :: x :: rest := by
        simp [Peers.Swap]
      rw [e]
      by_cases hx : x.Speed = s <;> by_cases hy : y.Speed = s
      · exact absurd (hy.trans hx.symm) hxy
      all_goals simp [List.filter_cons, hx, hy]
  | succ j ih =>
    intro l hl hne
    match l, hl with
    | x :: rest, hl =>
      have e : Peers.Swap (x :: rest) (j + 1 + 1) (j + 1) = x :: Peers.Swap rest (j + 1) j := by
        simp [Peers.Swap]
      have hne' : key rest (j + 1) ≠ key rest j := by simpa [key] using hne
      rw [e, List.filter_cons, List.filter_cons, ih rest (by simpa using hl) hne']

theorem insertionSortInner_length (a : Nat) :
    ∀ (j : Nat) (data : Peers), (insertionSortInner a j data).length = data.length := by
  intro j
  induction j with
  | zero => intro data; rfl
  | succ j ih =>
    intro data
    rw [insertionSortInner]
    split
    · rw [ih, Swap_length]
    · rfl

theorem insertionSortInner_filter (a : Nat) (s : Int) :
    ∀ (j : Nat) (data : Peers), j < data.length →
      (insertionSortInner a j data).filter (fun p => decide (p.Speed = s))
        = data.filter (fun p => decide (p.Speed = s)) := by
  intro j
  induction j with
  | zero => intro data _; rfl
  | succ j ih =>
    intro data hj
    rw [insertionSortInner]
    split
    · next hc =>
      have hlt := (Less_iff _ _ _).mp hc.2
      rw [ih _ (by rw [Swap_length]; omega), Swap_adjacent_filter s j data hj (ne_of_lt hlt)]
    · rfl

theorem insertionSort_loop_filter (a : Nat) (s : Int) :
    ∀ (n i : Nat) (data : Peers), i + n ≤ data.length →
      ((List.range' i n).foldl (fun d i => insertionSortInner a i d) data).filter
          (fun p => decide (p.Speed = s))
        = data.filter (fun p => decide (p.Speed = s)) := by
  intro n
  induction n with
  | zero => intro i data _; rfl
  | succ n ih =>
    intro i data h
    rw [List.range'_succ, List.foldl_cons,
      ih (i + 1) _ (by rw [insertionSortInner_length]; omega),
      insertionSortInner_filter a s i data (by omega)]

theorem insertionSort_filter (data : Peers) (a b : Nat) (hb : b ≤ data.length) (s : Int) :
    (insertionSort data a b).filter (fun p => decide (p.Speed = s))
      = data.filter (fun p => decide (p.Speed = s)) := by
  unfold insertionSort
  by_cases h : a + 1 < b
  · exact insertionSort_loop_filter a s _ _ data (by omega)
  · have e : b - (a + 1) = 0 := by omega
    rw [e]
    rfl

theorem sort_Sort_short (data : Peers) (h : data.length ≤ 12) :
    sort_Sort data = insertionSort data 0 data.length := by
  unfold sort_Sort pdqsort Peers.Len
  simp only []
  split
  · next h1 =>
    unfold insertionSort
    have e : data.length - (0 + 1) = 0 := by omega
    rw [e]
    rfl
  · rw [pdqsortLoop_succ, if_pos (by omega)]

/-! ## The bounds on the number of rounds are never reached

Each loop of the sort that is written with a bound on its rounds gives the
same result for every larger bound: the bound used in the model is enough. -/

theorem siftDown_fuel (hi first : Nat) :
    ∀ (fuel root : Nat) (data : Peers), hi - root ≤ fuel → ∀ extra,
      siftDown hi first (fuel + extra) root data = siftDown hi first fuel root data := by
  intro fuel
  induction fuel with
  | zero =>
    intro root data h extra
    cases extra with
    | zero => rfl
    | succ e =>
      have e0 : 0 + (e + 1) = e + 1 := by omega
      rw [e0, siftDown, siftDown]
      simp only []
      rw [if_pos (by omega)]
  | succ fuel ih =>
    intro root data h extra
    have e1 : fuel + 1 + extra = (fuel + extra) + 1 := by omega
    rw [e1, siftDown, siftDown]
    simp only []
    split
    · rfl
    · next hc =>
      have hc' : 2 * root + 1 ≤ (if 2 * root + 1 + 1 < hi ∧
          data.Less (first + (2 * root + 1)) (first + (2 * root + 1) + 1) = true
          then 2 * root + 1 + 1 else 2 * root + 1) := by
        split <;> omega
      generalize (if 2 * root + 1 + 1 < hi ∧
          data.Less (first + (2 * root + 1)) (first + (2 * root + 1) + 1) = true
          then 2 * root + 1 + 1 else 2 * root + 1) = c' at *
      split
      · rfl
      · exact ih _ _ (by omega) extra

theorem reverseLoop_fuel :
    ∀ (fuel i j : Nat) (data : Peers), j - i ≤ fuel → ∀ extra,
      reverseLoop (fuel + extra) i j data = reverseLoop fuel i j data := by
  intro fuel
  induction fuel with
  | zero =>
    intro i j data h extra
    cases extra with
    | zero => rfl
    | succ e =>
      have e0 : 0 + (e + 1) = e + 1 := by omega
      rw [e0, reverseLoop, reverseLoop, if_neg (by omega)]
  | succ fuel ih =>
    intro i j data h extra
    have e1 : fuel + 1 + extra = (fuel + extra) + 1 := by omega
    rw [e1, reverseLoop, reverseLoop]
    split
    · exact ih _ _ _ (by omega) extra
    · rfl

theorem scanLessUp_fuel (data : Peers) (a j : Nat) :
    ∀ (fuel i : Nat), j + 1 - i ≤ fuel → ∀ extra,
      scanLessUp data a j (fuel + extra) i = scanLessUp data a j fuel i := by
  intro fuel
  induction fuel with
  | zero =>
    intro i h extra
    cases extra with
    | zero => rfl
    | succ e =>
      have e0 : 0 + (e + 1) = e + 1 := by omega
      rw [e0, scanLessUp, scanLessUp, if_neg (fun hc => by omega)]
  | succ fuel ih =>
    intro i h extra
    have e1 : fuel + 1 + extra = (fuel + extra) + 1 := by omega
    rw [e1, scanLessUp, scanLessUp]
    split
    · exact ih _ (by omega) extra
    · rfl

theorem scanNotGreaterUp_fuel (data : Peers) (a j : Nat) :
    ∀ (fuel i : Nat), j + 1 - i ≤ fuel → ∀ extra,
      scanNotGreaterUp data a j (fuel + extra) i = scanNotGreaterUp data a j fuel i := by
  intro fuel
  induction fuel with
  | zero =>
    intro i h extra
    cases extra with
    | zero => rfl
    | succ e =>
      have e0 : 0 + (e + 1) = e + 1 := by omega
      rw [e0, scanNotGreaterUp, scanNotGreaterUp, if_neg (fun hc => by omega)]
  | succ fuel ih =>
    intro i h extra
    have e1 : fuel + 1 + extra = (fuel + extra) + 1 := by omega
    rw [e1, scanNotGreaterUp, scanNotGreaterUp]
    split
    · exact ih _ (by omega) extra
    · rfl

theorem skipOrdered_fuel (data : Peers) (b : Nat) :
    ∀ (fuel i : Nat), b - i ≤ fuel → ∀ extra,
      skipOrdered data b (fuel + extra) i = skipOrdered data b fuel i := by
  intro fuel
  induction fuel with
  | zero =>
    intro i h extra
    cases extra with
    | zero => rfl
    | succ e =>
      have e0 : 0 + (e + 1) = e + 1 := by omega
      rw [e0, skipOrdered, skipOrdered, if_neg (fun hc => by omega)]
  | succ fuel ih =>
    intro i h extra
    have e1 : fuel + 1 + extra = (fuel + extra) + 1 := by omega
    rw [e1, skipOrdered, skipOrdered]
    split
    · exact ih _ (by omega) extra
    · rfl

theorem shiftGreater_fuel (b : Nat) :
    ∀ (fuel j : Nat) (data : Peers), b - j ≤ fuel → ∀ extra,
      shiftGreater b (fuel + extra) j data = shiftGreater b fuel j data := by
  intro fuel
  induction fuel with
  | zero =>
    intro j data h extra
    cases extra with
    | zero => rfl
    | succ e =>
      have e0 : 0 + (e + 1) = e + 1 := by omega
      rw [e0, shiftGreater, shiftGreater, if_neg (by omega)]
  | succ fuel ih =>
    intro j data h extra
    have e1 : fuel + 1 + extra = (fuel + extra) + 1 := by omega
    rw [e1, shiftGreater, shiftGreater]
    split
    · split
      · rfl
      · exact ih _ _ (by omega) extra
    · rfl

theorem scanNotLessDown_le (data : Peers) (a i : Nat) :
    ∀ j, scanNotLessDown data a i j ≤ j := by
  intro j
  induction j with
  | zero => simp [scanNotLessDown]
  | succ j ih =>
    rw [scanNotLessDown]
    split
    · omega
    · exact le_refl _

theorem scanGreaterDown_le (data : Peers) (a i : Nat) :
    ∀ j, scanGreaterDown data a i j ≤ j := by
  intro j
  induction j with
  | zero => simp [scanGreaterDown]
  | succ j ih =>
    rw [scanGreaterDown]
    split
    · omega
    · exact le_refl _

theorem scanNotLessDown_of_lt (data : Peers) (a i : Nat) :
    ∀ j, j < i → scanNotLessDown data a i j = j := by
  intro j h
  cases j with
  | zero => rfl
  | succ j => rw [scanNotLessDown, if_neg (fun hc => by omega)]

theorem partitionLoop_fuel (a : Nat) :
    ∀ (fuel i j : Nat) (data : Peers), j + 1 - i ≤ fuel → ∀ extra,
      partitionLoop a (fuel + extra) i j data = partitionLoop a fuel i j data := by
  intro fuel
  induction fuel with
  | zero =>
    intro i j data h extra
    cases extra with
    | zero => rfl
    | succ e =>
      have e0 : 0 + (e + 1) = e + 1 := by omega
      have hz : j + 1 - i = 0 := by omega
      rw [e0, partitionLoop, partitionLoop, hz]
      simp only [scanLessUp]
      rw [scanNotLessDown_of_lt data a i j (by omega), if_pos (by omega)]
  | succ fuel ih =>
    intro i j data h extra
    have e1 : fuel + 1 + extra = (fuel + extra) + 1 := by omega
    rw [e1, partitionLoop, partitionLoop]
    have u := (scanLessUp_spec data a j (j + 1 - i) i (le_refl _)).1
    generalize scanLessUp data a j (j + 1 - i) i = i' at *
    have d := scanNotLessDown_le data a i' j
    generalize scanNotLessDown data a i' j = j' at *
    split
    · rfl
    · exact ih _ _ _ (by omega) extra

theorem partitionEqualLoop_fuel (a : Nat) :
    ∀ (fuel i j : Nat) (data : Peers), j + 1 - i ≤ fuel → ∀ extra,
      partitionEqualLoop a (fuel + extra) i j data = partitionEqualLoop a fuel i j data := by
  intro fuel
  induction fuel with
  | zero =>
    intro i j data h extra
    cases extra with
    | zero => rfl
    | succ e =>
      have e0 : 0 + (e + 1) = e + 1 := by omega
      have hz : j + 1 - i = 0 := by omega
      rw [e0, partitionEqualLoop, partitionEqualLoop, hz]
      simp only [scanNotGreaterUp]
      have := scanGreaterDown_le data a i j
      rw [if_pos (by omega)]
  | succ fuel ih =>
    intro i j data h extra
    have e1 : fuel + 1 + extra = (fuel + extra) + 1 := by omega
    rw [e1, partitionEqualLoop, partitionEqualLoop]
    have u := (scanNotGreaterUp_spec data a j (j + 1 - i) i (le_refl _)).1
    generalize scanNotGreaterUp data a j (j + 1 - i) i = i' at *
    have d := scanGreaterDown_le data a i' j
    generalize scanGreaterDown data a i' j = j' at *
    split
    · rfl
    · exact ih _ _ _ (by omega) extra

theorem pdqsortLoop_fuel :
    ∀ (fuel : Nat) (data : Peers) (a b limit : Nat) (wb wp : Bool),
      a ≤ b → b ≤ data.length → b - a < fuel →
      (0 < a → ∀ k, a ≤ k → k < b → key data (a - 1) ≤ key data k) →
      ∀ extra, pdqsortLoop (fuel + extra) data a b limit wb wp
        = pdqsortLoop fuel data a b limit wb wp := by
  intro fuel
  induction fuel with
  | zero => intro data a b limit wb wp _ _ h; omega
  | succ fuel ih =>
    intro data a b limit wb wp hab hb hf hfloor extra
    have e1 : fuel + 1 + extra = (fuel + extra) + 1 := by omega
    rw [e1, pdqsortLoop_succ, pdqsortLoop_succ]
    by_cases h12 : b - a ≤ 12
    · simp only [if_pos h12]
    · by_cases hlim : limit = 0
      · simp only [if_neg h12, if_pos hlim]
      · simp only [if_neg h12, if_neg hlim]
        have R1 : Rearranged a b data (if wb = true then data else breakPatterns data a b) := by
          split
          · exact Rearranged.refl _ _ _
          · exact breakPatterns_spec data a b hb
        generalize (if wb = true then data else breakPatterns data a b) = d1 at *
        generalize (if wb = true then limit else limit - 1) = limit' at *
        have hcp := choosePivot_bounds d1 a b (by omega)
        generalize choosePivot d1 a b = cp at *
        have hb1 : b ≤ d1.length := by rw [R1.len]; exact hb
        have R2 : Rearranged a b d1
            (if cp.2 = sortedHint.decreasingHint then reverseRange d1 a b else d1) := by
          split
          · exact reverseRange_spec d1 a b (by omega) hb1
          · exact Rearranged.refl _ _ _
        generalize (if cp.2 = sortedHint.decreasingHint then reverseRange d1 a b else d1)
          = d2 at *
        have hp : a ≤ (if cp.2 = sortedHint.decreasingHint then b - 1 - (cp.1 - a) else cp.1) ∧
            (if cp.2 = sortedHint.decreasingHint then b - 1 - (cp.1 - a) else cp.1) < b := by
          split <;> omega
        generalize (if cp.2 = sortedHint.decreasingHint then b - 1 - (cp.1 - a) else cp.1)
          = pivot at *
        generalize (if cp.2 = sortedHint.decreasingHint then sortedHint.increasingHint
          else cp.2) = hint at *
        have R02 : Rearranged a b data d2 := R1.trans R2
        have hb2 : b ≤ d2.length := by rw [R02.len]; exact hb
        have floor2 := floor_of_rearranged R02 hfloor
        have R3 : Rearranged a b d2
              (if wb = true ∧ wp = true ∧ hint = sortedHint.increasingHint
                then partialInsertionSort d2 a b else (false, d2)).2 := by
          split
          · exact (partialInsertionSort_spec d2 a b (by omega) hb2 floor2).1
          · exact Rearranged.refl _ _ _
        generalize (if wb = true ∧ wp = true ∧ hint = sortedHint.increasingHint
                then partialInsertionSort d2 a b else (false, d2)) = tried at *
        have R03 : Rearranged a b data tried.2 := R02.trans R3
        have hb3 : b ≤ tried.2.length := by rw [R03.len]; exact hb
        have floor3 := floor_of_rearranged R03 hfloor
        by_cases ht : tried.1 = true
        · simp only [if_pos ht]
        · simp only [if_neg ht]
          generalize tried.2 = d3 at *
          by_cases hc : 0 < a ∧ d3.Less (a - 1) pivot = false
          · simp only [if_pos hc]
            obtain ⟨e1, e2, e3, e4, e5, e6⟩ := partitionEqual_spec d3 a b pivot hp.1 hp.2 hb3
            generalize partitionEqual d3 a b pivot = pe at *
            exact ih pe.1 pe.2 b limit' wb wp e3 (by rw [e1.len]; exact hb3) (by omega)
              (fun _ k hk1 hk2 =>
                le_trans (e5 (pe.2 - 1) (by omega) (by omega)) (le_of_lt (e6 k hk1 hk2)))
              extra
          · simp only [if_neg hc]
            obtain ⟨p1, p2, p3, p4, p5⟩ := partition_spec d3 a b pivot hp.1 hp.2 hb3
            generalize partition d3 a b pivot = pt at *
            have hb4 : b ≤ pt.1.length := by rw [p1.len]; exact hb3
            have floor4 := floor_of_rearranged p1 floor3
            by_cases hlr : pt.2.1 - a < b - pt.2.1
            · simp only [if_pos hlr]
              have hin : (0 < a → ∀ k, a ≤ k → k < pt.2.1 → key pt.1 (a - 1) ≤ key pt.1 k) :=
                fun ha k h1 h2 => floor4 ha k h1 (by omega)
              rw [ih pt.1 a pt.2.1 limit' true true p2 (by omega) (by omega) hin extra]
              obtain ⟨l1, _⟩ := pdqsortLoop_spec fuel pt.1 a pt.2.1 limit' true true p2
                (by omega) (by omega) hin
              generalize pdqsortLoop fuel pt.1 a pt.2.1 limit' true true = d5 at *
              exact ih d5 (pt.2.1 + 1) b limit' _ _ (by omega) (by rw [l1.len]; exact hb4)
                (by omega)
                (fun _ k h1 h2 => by
                  have e : pt.2.1 + 1 - 1 = pt.2.1 := by omega
                  rw [e, l1.key_outside _ (Or.inr (le_refl _)),
                    l1.key_outside k (Or.inr (by omega))]
                  exact p5 k (by omega) h2)
                extra
            · simp only [if_neg hlr]
              have hin : (0 < pt.2.1 + 1 → ∀ k, pt.2.1 + 1 ≤ k → k < b →
                  key pt.1 (pt.2.1 + 1 - 1) ≤ key pt.1 k) :=
                fun _ k h1 h2 => by
                  have e : pt.2.1 + 1 - 1 = pt.2.1 := by omega
                  rw [e]
                  exact p5 k (by omega) h2
              rw [ih pt.1 (pt.2.1 + 1) b limit' true true (by omega) hb4 (by omega) hin extra]
              obtain ⟨l1, _⟩ := pdqsortLoop_spec fuel pt.1 (pt.2.1 + 1) b limit' true true
                (by omega) hb4 (by omega) hin
              generalize pdqsortLoop fuel pt.1 (pt.2.1 + 1) b limit' true true = d5 at *
              exact ih d5 a pt.2.1 limit' _ _ p2 (by rw [l1.len]; omega) (by omega)
                (fun ha k h1 h2 => by
                  rw [l1.key_outside (a - 1) (Or.inl (by omega)),
                    l1.key_outside k (Or.inl (by omega))]
                  exact floor4 ha k h1 (by omega))
                extra

/-- The bound `b - a + 1` that `pdqsort` gives its loop is enough: a larger one
gives the same slice. -/
theorem pdqsort_fuel (data : Peers) (a b limit : Nat) (hab : a ≤ b) (hb : b ≤ data.length)
    (hfloor : 0 < a → ∀ k, a ≤ k → k < b → key data (a - 1) ≤ key data k) (extra : Nat) :
    pdqsortLoop (b - a + 1 + extra) data a b limit true true = pdqsort data a b limit :=
  pdqsortLoop_fuel (b - a + 1) data a b limit true true hab hb (by omega) hfloor extra

/-! ## The sorted fast bucket and the selection -/

theorem sort_Sort_pairwise (good : Peers) :
    (sort_Sort good).Pairwise (fun p q => p.Speed ≤ q.Speed) := by
  obtain ⟨r, s⟩ := sort_Sort_spec good
  rw [List.pairwise_iff_getElem]
  intro i j hi hj hij
  have := s i j (Nat.zero_le _) (le_of_lt hij) (by rw [← r.len]; exact hj)
  unfold key at this
  rw [List.getD_eq_getElem _ _ hi, List.getD_eq_getElem _ _ hj] at this
  exact this

/-- C4: `sort.Sort(goodPeers)` leaves the fast bucket non-decreasing in
`Speed` (for all `i < j`, `goodPeers[i].Speed ≤ goodPeers[j].Speed`) and a
permutation of the bucket before sorting; the sorted bucket is the `goodPeers`
that `main` goes on with. -/
theorem sorted_bucket_is_ordered_permutation (good : Peers) :
    (sort_Sort good).Perm good ∧
    (∀ i j, i < j → j < (sort_Sort good).length →
      ((sort_Sort good).getD i default).Speed ≤ ((sort_Sort good).getD j default).Speed) ∧
    (sort_Sort good).Pairwise (fun p q => p.Speed ≤ q.Speed) ∧
    (∀ (n ms : Int) (net : Nat → String → DialResult) (peers : List Peer),
      (selectPeers n ms net peers).goodPeers
        = sort_Sort (classifyLoop (threshold ms) net 0 peers Buckets.empty).goodPeers) := by
  obtain ⟨r, s⟩ := sort_Sort_spec good
  refine ⟨r.perm, ?_, sort_Sort_pairwise good, fun _ _ _ _ => rfl⟩
  intro i j hij hj
  exact s i j (Nat.zero_le _) (le_of_lt hij) (by rw [← r.len]; exact hj)

/-- C5 fails as stated: of thirteen fast peers, twelve with the same latency
classified in the order `p0, ..., p11`, `sort.Sort` puts `p6` before `p2` and
`p0`, and `p1` last; `main` prints them in that order. -/
theorem sort_reorders_equal_latencies :
    (sort_Sort tiedBucket).map (fun p => p.Addr)
      = ["p12:1", "p6:1", "p2:1", "p3:1", "p4:1", "p5:1", "p0:1", "p7:1", "p8:1", "p9:1",
         "p10:1", "p11:1", "p1:1"] ∧
    ((sort_Sort tiedBucket).filter (fun p => decide (p.Speed = 5 * Millisecond))).map
        (fun p => p.Addr)
      ≠ (tiedBucket.filter (fun p => decide (p.Speed = 5 * Millisecond))).map (fun p => p.Addr) ∧
    (selectPeers 30 1000 tiedNet tiedPeers).selectedPeers
      = ["p12:1", "p6:1", "p2:1", "p3:1", "p4:1", "p5:1", "p0:1", "p7:1", "p8:1", "p9:1",
         "p10:1", "p11:1", "p1:1"] := by
  decide

/-- C5, as the code has it: in a fast bucket of at most twelve peers (the
range `sort.Sort` hands to insertion sort), the peers of every latency `s`
stand in the sorted bucket in the order in which they were classified. -/
theorem short_bucket_sort_is_stable (good : Peers) (h : good.length ≤ 12) (s : Duration) :
    (sort_Sort good).filter (fun p => decide (p.Speed = s))
      = good.filter (fun p => decide (p.Speed = s)) := by
  rw [sort_Sort_short good h]
  exact insertionSort_filter good 0 good.length (le_refl _) s

/-- A bucket of three peers, two of them at 5ms, keeps these two in order. -/
theorem short_bucket_sort_is_stable_witness :
    shortTiedBucket.length ≤ 12 ∧
    (sort_Sort shortTiedBucket).filter (fun p => decide (p.Speed = 5 * Millisecond))
      = shortTiedBucket.filter (fun p => decide (p.Speed = 5 * Millisecond)) :=
  ⟨by decide, short_bucket_sort_is_stable shortTiedBucket (by decide) (5 * Millisecond)⟩

theorem mem_specMembers_fast (T : Duration) (net : Nat → String → DialResult) (peers : List Peer)
    (p : Peer) (h : p ∈ specMembers T net 0 peers .fast) :
    ∃ (i : Nat) (q : Peer) (L : Duration), peers[i]? = some q ∧ q.Addr = p.Addr ∧
      net i q.Addr = .connected L ∧ L ≤ T ∧ p.Speed = L := by
  unfold specMembers at h
  rw [List.mem_filterMap] at h
  obtain ⟨⟨i, q⟩, hmem, hx⟩ := h
  obtain ⟨_, h2, h3⟩ := List.mem_enumFrom hmem
  simp only at hx
  cases hnet : net i q.Addr with
  | failed err => simp [hnet, specBucket] at hx
  | connected L =>
    by_cases hT : L > T
    · simp [hnet, specBucket, hT] at hx
    · simp only [hnet, specBucket, hT, specRecorded, if_true, if_false, Option.some.injEq] at hx
      refine ⟨i, q, L, ?_, ?_, hnet, not_lt.mp hT, ?_⟩
      · rw [h3]
        simp at h2
        simp [h2]
      · rw [← hx]
      · rw [← hx]

/-- C7: the selection is the top `n` of the fast peers: every selected address
is the address of an input peer whose dial succeeded with a latency of at most
the threshold; the selection lists the first `n` peers of the sorted fast
bucket, and every fast peer after them is at least as slow as each of them. -/
theorem selection_is_top_n (n ms : Int) (net : Nat → String → DialResult)
    (peers : List Peer) :
    (∀ addr ∈ (selectPeers n ms net peers).selectedPeers,
      ∃ (i : Nat) (q : Peer) (L : Duration), peers[i]? = some q ∧ q.Addr = addr ∧
        net i q.Addr = .connected L ∧ L ≤ threshold ms) ∧
    (selectPeers n ms net peers).selectedPeers
      = ((selectPeers n ms net peers).goodPeers.take n.toNat).map (fun p => p.Addr) ∧
    (selectPeers n ms net peers).goodPeers.Perm
      (specMembers (threshold ms) net 0 peers .fast) ∧
    (∀ p ∈ (selectPeers n ms net peers).goodPeers.take n.toNat,
      ∀ q ∈ (selectPeers n ms net peers).goodPeers.drop n.toNat, p.Speed ≤ q.Speed) := by
  have hsel : (selectPeers n ms net peers).selectedPeers
      = ((selectPeers n ms net peers).goodPeers.take n.toNat).map (fun p => p.Addr) := by
    simp only [selectPeers, selectLoop_eq]
    simp
  have hgood : (selectPeers n ms net peers).goodPeers
      = sort_Sort (specMembers (threshold ms) net 0 peers .fast) := by
    simp only [selectPeers, classifyLoop_eq, Buckets.empty, List.nil_append]
  have hperm : (selectPeers n ms net peers).goodPeers.Perm
      (specMembers (threshold ms) net 0 peers .fast) := by
    rw [hgood]
    exact (sort_Sort_spec _).1.perm
  refine ⟨?_, hsel, hperm, ?_⟩
  · intro addr haddr
    rw [hsel, List.mem_map] at haddr
    obtain ⟨p, hp, rfl⟩ := haddr
    have hp' := hperm.subset (List.mem_of_mem_take hp)
    obtain ⟨i, q, L, h1, h2, h3, h4, _⟩ := mem_specMembers_fast _ net peers p hp'
    exact ⟨i, q, L, h1, h2, h3, h4⟩
  · have hpw := sort_Sort_pairwise (specMembers (threshold ms) net 0 peers .fast)
    rw [← hgood, ← List.take_append_drop n.toNat (selectPeers n ms net peers).goodPeers,
      List.pairwise_append] at hpw
    exact hpw.2.2

/-- C8 fails as stated: with `-n -1 -ms -1` and a node that lists the peer
`a:1`, `main` does not stop with an error: it dials the peer (its measured
latency of 50ms is recorded) and ends normally with the peer in `slowPeers`. -/
theorem negative_flags_still_probe :
    main (-1) (-1) (.body (.ok singlePeerReply)) scenarioNet
      = .ok ⟨[], [⟨"", "a:1", "ed25519:abc", 50 * Millisecond⟩], [], [], ""⟩ := by
  rfl

/-- C8, as the code has it: `main` never checks `n` or `ms`.  For all values of
the flags, negative ones included, once the peers are fetched every peer is
probed and classified (the bucket sizes add up to `len(peers)`) and the run
ends normally; for `n ≤ 0` the selection is empty, and for a negative `ms`
whose product with a million fits 64 bits no peer with a non-negative latency
is fast. -/
theorem flags_are_not_validated (n ms : Int) (reply : HttpReply)
    (net : Nat → String → DialResult) (peers : List Peer)
    (hfetch : getPeers reply = .ok peers) :
    main n ms reply net = .ok (selectPeers n ms net peers) ∧
    (selectPeers n ms net peers).goodPeers.length + (selectPeers n ms net peers).slowPeers.length
      + (selectPeers n ms net peers).badPeers.length = peers.length ∧
    (n ≤ 0 → (selectPeers n ms net peers).selectedPeers = []) ∧
    (ms < 0 → -9223372036854 ≤ ms → (∀ k addr L, net k addr = .connected L → 0 ≤ L) →
      (selectPeers n ms net peers).goodPeers = [] ∧
      (selectPeers n ms net peers).selectedPeers = []) := by
  have hsel : (selectPeers n ms net peers).selectedPeers
      = ((selectPeers n ms net peers).goodPeers.take n.toNat).map (fun p => p.Addr) := by
    simp only [selectPeers, selectLoop_eq]
    simp
  have hgood : (selectPeers n ms net peers).goodPeers
      = sort_Sort (specMembers (threshold ms) net 0 peers .fast) := by
    simp only [selectPeers, classifyLoop_eq, Buckets.empty, List.nil_append]
  refine ⟨by simp [main, hfetch], ?_, ?_, ?_⟩
  · have hlen := (sort_Sort_spec (specMembers (threshold ms) net 0 peers .fast)).1.len
    have hsum := specMembers_length_sum (threshold ms) net peers 0
    rw [hgood, hlen]
    simpa [selectPeers, classifyLoop_eq, Buckets.empty] using hsum
  · intro hn
    rw [hsel]
    have : n.toNat = 0 := by omega
    simp [this]
  · intro hms hlow hnet
    have hT : threshold ms < 0 := by
      have e1 : wrap64 ms = ms := by
        unfold wrap64
        omega
      have e2 : wrap64 (ms * 1000000) = ms * 1000000 := by
        unfold wrap64
        omega
      show wrap64 (wrap64 ms * 1000000) < 0
      rw [e1, e2]
      omega
    have hnil : (selectPeers n ms net peers).goodPeers = [] := by
      rw [hgood]
      have : specMembers (threshold ms) net 0 peers .fast = [] := by
        rw [List.eq_nil_iff_forall_not_mem]
        intro p hp
        obtain ⟨i, q, L, _, _, h3, h4, _⟩ := mem_specMembers_fast _ net peers p hp
        have h0 := hnet i q.Addr L h3
        have : L < 0 := lt_of_le_of_lt h4 hT
        exact absurd h0 (not_le.mpr this)
      rw [this]
      rfl
    exact ⟨hnil, by rw [hsel, hnil]; simp⟩

/-- The run with `-n -1 -ms -1` over the node that lists `a:1`. -/
theorem flags_are_not_validated_witness :
    getPeers (.body (.ok singlePeerReply)) = .ok [⟨"", "a:1", "ed25519:abc", 0⟩] ∧
    main (-1) (-1) (.body (.ok singlePeerReply)) scenarioNet
      = .ok (selectPeers (-1) (-1) scenarioNet [⟨"", "a:1", "ed25519:abc", 0⟩]) :=
  ⟨rfl, (flags_are_not_validated (-1) (-1) (.body (.ok singlePeerReply)) scenarioNet
    [⟨"", "a:1", "ed25519:abc", 0⟩] rfl).1⟩

/-! ## Further properties -/

/-- For `|ms| ≤ 9223372036854` the threshold is exactly `ms` milliseconds: the
product `time.Duration(*ms)*time.Millisecond` does not wrap. -/
theorem threshold_exact_in_range (ms : Int) (h1 : -9223372036854 ≤ ms)
    (h2 : ms ≤ 9223372036854) : threshold ms = ms * 1000000 := by
  have e1 : wrap64 ms = ms := by
    unfold wrap64
    omega
  have e2 : wrap64 (ms * 1000000) = ms * 1000000 := by
    unfold wrap64
    omega
  show wrap64 (wrap64 ms * 1000000) = ms * 1000000
  rw [e1, e2]

/-- The default `-ms 1000` is a threshold of one second. -/
theorem threshold_exact_in_range_witness :
    (-9223372036854 : Int) ≤ 1000 ∧ (1000 : Int) ≤ 9223372036854 ∧
    threshold 1000 = 1000 * 1000000 :=
  ⟨by decide, by decide, threshold_exact_in_range 1000 (by decide) (by decide)⟩

/-- When the node lists no peer, `main` ends normally with three empty buckets
and an empty selection. -/
theorem no_peers_no_selection (n ms : Int) (reply : HttpReply)
    (net : Nat → String → DialResult) (h : getPeers reply = .ok []) :
    main n ms reply net = .ok ⟨[], [], [], [], ""⟩ := by
  simp only [main, h]
  rfl

/-- The reply with an empty `active_peers` array is such a case. -/
theorem no_peers_no_selection_witness :
    getPeers (.body (.ok emptyPeersReply)) = .ok [] ∧
    main 30 1000 (.body (.ok emptyPeersReply)) scenarioNet = .ok ⟨[], [], [], [], ""⟩ :=
  ⟨rfl, no_peers_no_selection 30 1000 (.body (.ok emptyPeersReply)) scenarioNet rfl⟩

end GoodPeers
